import Mathlib

/-!
Verification of the ZeRag hybrid retrieval backend.

This file shallowly embeds the core algorithms of the repository —
the text chunker (`app/utils/text_splitter.py`), the BM25 lexical search
(`app/services/bm25_service.py`), the retrieval fusion and keyword search
(`app/services/vector_store_service.py`), the SQL-fallback trigger
(`app/services/rag_service.py`), the cache version counter
(`app/services/cache_service.py`) and the sync state machine
(`app/services/vector_store_service.py`) — and proves or refutes the
specified properties about them.

Python strings are modelled as `List Char`; Python floats are modelled as
exact rationals `ℚ`; database and library calls (SQL row sets, jieba
tokenisation, the rank_bm25 scoring call, the embedding model) are
parameters of the embedded functions, since the claims concern only the
repository's own post-processing of those results.
-/

set_option maxHeartbeats 1000000

namespace ZeRag

/-! ### Python string primitives -/

/-- The whitespace predicate of Python's `str.strip()` (ASCII subset). -/
def pyIsSpace (c : Char) : Bool :=
  c == ' ' || c == '\t' || c == '\n' || c == '\r' ||
  c == Char.ofNat 11 || c == Char.ofNat 12

/-- Python `s.strip()`: drop leading and trailing whitespace. -/
def pyStrip (l : List Char) : List Char :=
  ((l.dropWhile pyIsSpace).reverse.dropWhile pyIsSpace).reverse

theorem length_dropWhile_le {α : Type} (p : α → Bool) (l : List α) :
    (l.dropWhile p).length ≤ l.length := by
  induction l with
  | nil => simp
  | cons a l ih =>
    by_cases h : p a
    · rw [List.dropWhile_cons_of_pos h]; exact Nat.le_succ_of_le ih
    · rw [List.dropWhile_cons_of_neg h]

theorem mem_of_mem_dropWhile {α : Type} {p : α → Bool} {l : List α} {c : α}
    (h : c ∈ l.dropWhile p) : c ∈ l := by
  induction l with
  | nil => simp at h
  | cons a l ih =>
    by_cases hp : p a
    · rw [List.dropWhile_cons_of_pos hp] at h
      exact List.mem_cons_of_mem _ (ih h)
    · rwa [List.dropWhile_cons_of_neg hp] at h

theorem pyStrip_length_le (l : List Char) : (pyStrip l).length ≤ l.length := by
  unfold pyStrip
  calc ((l.dropWhile pyIsSpace).reverse.dropWhile pyIsSpace).reverse.length
      = ((l.dropWhile pyIsSpace).reverse.dropWhile pyIsSpace).length := by
        rw [List.length_reverse]
    _ ≤ (l.dropWhile pyIsSpace).reverse.length := length_dropWhile_le _ _
    _ = (l.dropWhile pyIsSpace).length := by rw [List.length_reverse]
    _ ≤ l.length := length_dropWhile_le _ _

theorem dropWhile_nil_iff {p : Char → Bool} {l : List Char} :
    l.dropWhile p = [] ↔ ∀ c ∈ l, p c := by
  induction l with
  | nil => simp
  | cons a l ih =>
    by_cases h : p a
    · simp [List.dropWhile, h, ih]
    · simp [List.dropWhile, h]

theorem pyStrip_eq_nil_iff {l : List Char} :
    pyStrip l = [] ↔ ∀ c ∈ l, pyIsSpace c := by
  unfold pyStrip
  rw [List.reverse_eq_nil_iff, dropWhile_nil_iff]
  constructor
  · intro h c hc
    by_cases hsp : pyIsSpace c
    · exact hsp
    · have hc2 : c ∈ l.dropWhile pyIsSpace ∨ c ∈ l.takeWhile pyIsSpace := by
        have := @List.takeWhile_append_dropWhile _ pyIsSpace l
        rw [← this] at hc
        rcases List.mem_append.mp hc with h1 | h2
        · exact Or.inr h1
        · exact Or.inl h2
      rcases hc2 with h1 | h2
      · exact absurd (h c (List.mem_reverse.mpr h1)) hsp
      · exact List.mem_takeWhile_imp h2
  · intro h c hc
    exact h c (mem_of_mem_dropWhile (List.mem_reverse.mp hc))

theorem pyStrip_ne_nil_of_mem {l : List Char} {c : Char}
    (hc : c ∈ l) (hsp : ¬ pyIsSpace c) : pyStrip l ≠ [] := by
  intro h
  exact hsp (pyStrip_eq_nil_iff.mp h c hc)

/-! ### `split_text` — the `fixed` strategy (text_splitter.py lines 20–45)

The Python `while start < len(text)` loop is embedded as a fuel-indexed
function returning `Option`: `none` means the fuel ran out while the loop
condition still held, so termination is exactly `∃ fuel, (… fuel …).isSome`.
The stride `chunk_size - chunk_overlap` uses truncated `Nat` subtraction;
a non-positive Python stride and a zero `Nat` stride both leave `start`
unchanged, so the termination behaviour agrees. -/

/-- The chunking loop of `split_text`: emit `text[start : start+size]`,
advance `start` by `size - overlap`, until `start ≥ len(text)`. -/
def fixedLoop (t : List Char) (size overlap : Nat) : Nat → Nat → Option (List (List Char))
  | 0, start => if start < t.length then none else some []
  | fuel + 1, start =>
    if start < t.length then
      (fixedLoop t size overlap fuel (start + (size - overlap))).map
        (fun rest => (t.drop start).take size :: rest)
    else
      some []

/-- `split_text(text, chunk_size, chunk_overlap)` from text_splitter.py.
The internal fuel `t.length + 1` is sufficient whenever the stride is
positive (proved below); the `getD []` default is never taken in that case. -/
def splitText (text : List Char) (size overlap : Nat) : List (List Char) :=
  if pyStrip text = [] then []
  else
    let t := pyStrip text
    if t.length ≤ size then [t]
    else (fixedLoop t size overlap (t.length + 1) 0).getD []

theorem fixedLoop_isSome_of_le {t : List Char} {size overlap : Nat} :
    ∀ fuel start, t.length ≤ start + fuel * (size - overlap) →
      (fixedLoop t size overlap fuel start).isSome := by
  intro fuel
  induction fuel with
  | zero =>
    intro start h
    simp only [Nat.zero_mul, Nat.add_zero] at h
    simp [fixedLoop, Nat.not_lt.mpr h]
  | succ n ih =>
    intro start h
    by_cases hlt : start < t.length
    · have h2 : t.length ≤ start + (size - overlap) + n * (size - overlap) := by
        have : start + (n + 1) * (size - overlap)
            = start + (size - overlap) + n * (size - overlap) := by ring
        omega
      have := ih (start + (size - overlap)) h2
      simp only [fixedLoop, if_pos hlt]
      rcases Option.isSome_iff_exists.mp this with ⟨v, hv⟩
      simp [hv]
    · simp [fixedLoop, hlt]

theorem fixedLoop_none_of_stride_zero {t : List Char} {size overlap : Nat}
    (hstride : size - overlap = 0) (hne : 0 < t.length) :
    ∀ fuel, fixedLoop t size overlap fuel 0 = none := by
  intro fuel
  induction fuel with
  | zero => simp [fixedLoop, hne]
  | succ n ih => simp [fixedLoop, hne, hstride, ih]

/-- Termination of `split_text` as a predicate: either the loop is never
entered (stripped input fits in one chunk) or some fuel completes the loop. -/
def SplitTextTerminates (text : List Char) (size overlap : Nat) : Prop :=
  (pyStrip text).length ≤ size ∨
  ∃ fuel, (fixedLoop (pyStrip text) size overlap fuel 0).isSome

/-! Sanity checks on small concrete inputs. -/

example : splitText "abcdef".toList 3 1 =
    ["abc".toList, "cde".toList, "ef".toList] := by decide

example : splitText "  ab  ".toList 10 2 = ["ab".toList] := by decide

example : splitText "   ".toList 5 1 = [] := by decide

/-! Structural lemmas about the chunks produced by `fixedLoop`. -/

theorem fixedLoop_chunk_length {t : List Char} {size overlap : Nat} :
    ∀ fuel start result, fixedLoop t size overlap fuel start = some result →
      ∀ c ∈ result, c.length ≤ size := by
  intro fuel
  induction fuel with
  | zero =>
    intro start result h c hc
    by_cases hlt : start < t.length
    · simp [fixedLoop, hlt] at h
    · simp [fixedLoop, hlt] at h
      subst h
      simp at hc
  | succ n ih =>
    intro start result h c hc
    by_cases hlt : start < t.length
    · simp only [fixedLoop, if_pos hlt, Option.map_eq_some'] at h
      obtain ⟨rest, hrest, hres⟩ := h
      subst hres
      rcases List.mem_cons.mp hc with hc1 | hc2
      · subst hc1
        exact List.length_take_le _ _
      · exact ih (start + (size - overlap)) rest hrest c hc2
    · simp only [fixedLoop, if_neg hlt, Option.some.injEq] at h
      subst h
      simp at hc

theorem fixedLoop_chunk_ne_nil {t : List Char} {size overlap : Nat}
    (hsize : 0 < size) :
    ∀ fuel start result, fixedLoop t size overlap fuel start = some result →
      ∀ c ∈ result, c ≠ [] := by
  intro fuel
  induction fuel with
  | zero =>
    intro start result h c hc
    by_cases hlt : start < t.length
    · simp [fixedLoop, hlt] at h
    · simp [fixedLoop, hlt] at h
      subst h
      simp at hc
  | succ n ih =>
    intro start result h c hc
    by_cases hlt : start < t.length
    · simp only [fixedLoop, if_pos hlt, Option.map_eq_some'] at h
      obtain ⟨rest, hrest, hres⟩ := h
      subst hres
      rcases List.mem_cons.mp hc with hc1 | hc2
      · subst hc1
        have hdrop : (t.drop start).length = t.length - start := List.length_drop _ _
        intro hnil
        have := congrArg List.length hnil
        rw [List.length_take, hdrop] at this
        simp at this
        omega
      · exact ih (start + (size - overlap)) rest hrest c hc2
    · simp only [fixedLoop, if_neg hlt, Option.some.injEq] at h
      subst h
      simp at hc

/-- All chunks of the `fixed` strategy fit in the target size. -/
theorem splitText_chunk_length (text : List Char) (size overlap : Nat) :
    ∀ c ∈ splitText text size overlap, c.length ≤ size := by
  intro c hc
  unfold splitText at hc
  by_cases h0 : pyStrip text = []
  · simp [h0] at hc
  · simp only [if_neg h0] at hc
    by_cases h1 : (pyStrip text).length ≤ size
    · simp only [if_pos h1] at hc
      rcases List.mem_singleton.mp hc with rfl
      exact h1
    · simp only [if_neg h1] at hc
      cases hopt : fixedLoop (pyStrip text) size overlap ((pyStrip text).length + 1) 0 with
      | none => rw [hopt] at hc; simp at hc
      | some res =>
        rw [hopt] at hc
        simp only [Option.getD_some] at hc
        exact fixedLoop_chunk_length _ _ _ hopt c hc

/-- No chunk of the `fixed` strategy is empty. -/
theorem splitText_chunk_ne_nil (text : List Char) (size overlap : Nat) :
    ∀ c ∈ splitText text size overlap, c ≠ [] := by
  intro c hc
  unfold splitText at hc
  by_cases h0 : pyStrip text = []
  · simp [h0] at hc
  · simp only [if_neg h0] at hc
    by_cases h1 : (pyStrip text).length ≤ size
    · simp only [if_pos h1] at hc
      rcases List.mem_singleton.mp hc with rfl
      exact h0
    · simp only [if_neg h1] at hc
      rcases Nat.eq_zero_or_pos size with hz | hsize
    -- size = 0 forces a zero stride, so the loop diverges and the default [] is taken
      · have hlen : 0 < (pyStrip text).length := List.length_pos.mpr h0
        have hnone := @fixedLoop_none_of_stride_zero (pyStrip text) size overlap
          (by omega) hlen ((pyStrip text).length + 1)
        rw [hnone] at hc
        simp at hc
      · cases hopt : fixedLoop (pyStrip text) size overlap ((pyStrip text).length + 1) 0 with
        | none => rw [hopt] at hc; simp at hc
        | some res =>
          rw [hopt] at hc
          simp only [Option.getD_some] at hc
          exact fixedLoop_chunk_ne_nil hsize _ _ _ hopt c hc

/-! ### Reconstruction of the input from `fixed` chunks (claim C6) -/

/-- Concatenate chunks with the declared overlap (the leading `overlap`
characters of every chunk after the first) removed. -/
def reconstruct (overlap : Nat) : List (List Char) → List Char
  | [] => []
  | c :: rest => c ++ ((rest.map (fun x => x.drop overlap)).flatten)

theorem take_drop_glue (L : List Char) (size ov : Nat) (h : ov ≤ size) :
    (L.take size).drop ov ++ L.drop size = L.drop ov := by
  have h2 : ov + (size - ov) = size := by omega
  have h1 : (L.drop ov).take (size - ov) = (L.take size).drop ov := by
    rw [List.take_drop, h2]
  rw [← h1]
  have h3 : size = (size - ov) + ov := by omega
  calc (L.drop ov).take (size - ov) ++ L.drop size
      = (L.drop ov).take (size - ov) ++ L.drop ((size - ov) + ov) := by rw [← h3]
    _ = L.drop ov := List.drop_take_append_drop' L ov (size - ov)

theorem fixedLoop_flatten_drop {t : List Char} {size overlap : Nat}
    (hov : overlap ≤ size) :
    ∀ fuel start result, fixedLoop t size overlap fuel start = some result →
      ((result.map (fun x => x.drop overlap)).flatten) = t.drop (start + overlap) := by
  intro fuel
  induction fuel with
  | zero =>
    intro start result h
    by_cases hlt : start < t.length
    · simp [fixedLoop, hlt] at h
    · simp [fixedLoop, hlt] at h
      subst h
      simp only [List.map_nil, List.flatten_nil]
      symm
      rw [List.drop_eq_nil_iff]
      omega
  | succ n ih =>
    intro start result h
    by_cases hlt : start < t.length
    · simp only [fixedLoop, if_pos hlt, Option.map_eq_some'] at h
      obtain ⟨rest, hrest, hres⟩ := h
      subst hres
      simp only [List.map_cons, List.flatten_cons]
      rw [ih (start + (size - overlap)) rest hrest]
      have he : start + (size - overlap) + overlap = start + size := by omega
      rw [he]
      have hd : t.drop (start + size) = (t.drop start).drop size := by
        rw [List.drop_drop]
      have hd2 : t.drop (start + overlap) = (t.drop start).drop overlap := by
        rw [List.drop_drop]
      rw [hd]
      rw [take_drop_glue (t.drop start) size overlap hov]
      rw [← hd2]
    · simp only [fixedLoop, if_neg hlt, Option.some.injEq] at h
      subst h
      simp only [List.map_nil, List.flatten_nil]
      symm
      rw [List.drop_eq_nil_iff]
      omega

/-- Reconstruction for the `fixed` strategy: removing the declared overlap
and concatenating restores the whitespace-stripped input. -/
theorem splitText_reconstruct (text : List Char) (size overlap : Nat)
    (hov : overlap < size) :
    reconstruct overlap (splitText text size overlap) = pyStrip text := by
  unfold splitText
  by_cases h0 : pyStrip text = []
  · simp [h0, reconstruct]
  · simp only [if_neg h0]
    by_cases h1 : (pyStrip text).length ≤ size
    · simp [h1, reconstruct]
    · simp only [if_neg h1]
      have hlen : 0 < (pyStrip text).length := List.length_pos.mpr h0
      have hst : 1 ≤ size - overlap := by omega
      have hfuel : (pyStrip text).length ≤
          0 + ((pyStrip text).length + 1) * (size - overlap) := by
        have := Nat.mul_le_mul_left ((pyStrip text).length + 1) hst
        omega
      have hsome := @fixedLoop_isSome_of_le (pyStrip text) size overlap
        ((pyStrip text).length + 1) 0 hfuel
      obtain ⟨res, hres⟩ := Option.isSome_iff_exists.mp hsome
      rw [hres]
      simp only [Option.getD_some]
      have hres2 := hres
      simp only [fixedLoop, if_pos hlen, Option.map_eq_some'] at hres2
      obtain ⟨rest, hrest, hr⟩ := hres2
      subst hr
      show ((pyStrip text).drop 0).take size ++
        ((rest.map (fun x => x.drop overlap)).flatten) = pyStrip text
      rw [fixedLoop_flatten_drop (Nat.le_of_lt hov) _ _ _ hrest]
      have he : 0 + (size - overlap) + overlap = size := by omega
      rw [he]
      simp only [List.drop_zero]
      exact List.take_append_drop size (pyStrip text)

/-! ### `split_text_by_paragraph` (text_splitter.py lines 52–97) -/

/-- Python `text.replace('\r\n', '\n')`: left-to-right, non-overlapping. -/
def replaceCRLF : List Char → List Char
  | '\r' :: '\n' :: rest => '\n' :: replaceCRLF rest
  | c :: rest => c :: replaceCRLF rest
  | [] => []

/-- Worker for `paraPieces`.  The flag is true while a `\n{2,}` separator
run is still being swallowed. -/
def paraAux : Bool → List Char → List (List Char)
  | _, [] => [[]]
  | true, '\n' :: rest => paraAux true rest
  | false, '\n' :: '\n' :: rest => [] :: paraAux true rest
  | _, c :: rest =>
    match paraAux false rest with
    | p :: ps => (c :: p) :: ps
    | [] => [[c]]

/-- `re.split(r'\n{2,}', l)`: pieces separated by runs of two or more
newlines.  The result is never empty; an empty trailing piece appears when
the text ends with a separator. -/
def paraPieces (l : List Char) : List (List Char) := paraAux false l

/-- One step of the paragraph merge loop (lines 76–92). -/
def paraStep (size overlap : Nat) (st : List (List Char) × List Char)
    (para : List Char) : List (List Char) × List Char :=
  if size < para.length then
    ((st.1 ++ (if st.2 = [] then [] else [pyStrip st.2])) ++
      splitText para size overlap, [])
  else
    let candidate := if st.2 = [] then para else pyStrip (st.2 ++ ['\n', '\n'] ++ para)
    if candidate.length ≤ size then (st.1, candidate)
    else (st.1 ++ (if st.2 = [] then [] else [pyStrip st.2]), para)

/-- The local `paragraphs` list of `split_text_by_paragraph`. -/
def paraParagraphsOf (text : List Char) : List (List Char) :=
  ((paraPieces (pyStrip (replaceCRLF text))).map pyStrip).filter (fun p => p ≠ [])

/-- The (chunks, buffer) state after the paragraph merge loop. -/
def paraFoldSt (text : List Char) (size overlap : Nat) :
    List (List Char) × List Char :=
  (paraParagraphsOf text).foldl (paraStep size overlap) ([], [])

/-- The `chunks` list of `split_text_by_paragraph` after the final flush. -/
def paraChunksOf (text : List Char) (size overlap : Nat) : List (List Char) :=
  if (paraFoldSt text size overlap).2 = [] then (paraFoldSt text size overlap).1
  else (paraFoldSt text size overlap).1 ++ [pyStrip (paraFoldSt text size overlap).2]

/-- `split_text_by_paragraph(text, chunk_size, chunk_overlap)`. -/
def splitTextByParagraph (text : List Char) (size overlap : Nat) :
    List (List Char) :=
  if pyStrip text = [] then []
  else if paraParagraphsOf text = [] then
    splitText (pyStrip (replaceCRLF text)) size overlap
  else (paraChunksOf text size overlap).filter (fun c => c ≠ [])

/-! ### `split_text_by_sentence` (text_splitter.py lines 108–159) -/

/-- The sentence terminators of `_SENTENCE_END = (?<=[。！？.!?])\s*`. -/
def isSentEnd (c : Char) : Bool :=
  c == '。' || c == '！' || c == '？' || c == '.' || c == '!' || c == '?'

/-- Worker for `sentencePieces`.  The flag is true while the `\s*` part of
the separator is still being swallowed. -/
def sentAux : Bool → List Char → List (List Char)
  | _, [] => [[]]
  | true, c :: rest =>
    if pyIsSpace c then sentAux true rest
    else if isSentEnd c then [c] :: sentAux true rest
    else
      match sentAux false rest with
      | p :: ps => (c :: p) :: ps
      | [] => [[c]]
  | false, c :: rest =>
    if isSentEnd c then [c] :: sentAux true rest
    else
      match sentAux false rest with
      | p :: ps => (c :: p) :: ps
      | [] => [[c]]

/-- `_SENTENCE_END.split(l)`: close a piece right after each terminator and
swallow the following whitespace run (the separator match). -/
def sentencePieces (l : List Char) : List (List Char) := sentAux false l

/-- One step of the sentence merge loop (lines 128–143). -/
def sentStep (size overlap : Nat) (st : List (List Char) × List Char)
    (sent : List Char) : List (List Char) × List Char :=
  if size < sent.length then
    ((st.1 ++ (if st.2 = [] then [] else [pyStrip st.2])) ++
      splitText sent size overlap, [])
  else
    let candidate := if st.2 = [] then sent else st.2 ++ sent
    if candidate.length ≤ size then (st.1, candidate)
    else (st.1 ++ (if st.2 = [] then [] else [pyStrip st.2]), sent)

/-- The trailing-overlap pass (lines 149–157): append the next chunk's
leading `overlap` characters to every chunk but the last. -/
def addOverlap (overlap : Nat) : List (List Char) → List (List Char)
  | [] => []
  | [c] => [c]
  | c :: next :: rest => (c ++ next.take overlap) :: addOverlap overlap (next :: rest)

/-- The local `sentences` list of `split_text_by_sentence`. -/
def sentSentencesOf (text : List Char) : List (List Char) :=
  ((sentencePieces (pyStrip text)).map pyStrip).filter (fun p => p ≠ [])

/-- The (chunks, buffer) state after the sentence merge loop. -/
def sentFoldSt (text : List Char) (size overlap : Nat) :
    List (List Char) × List Char :=
  (sentSentencesOf text).foldl (sentStep size overlap) ([], [])

/-- The `chunks` list of `split_text_by_sentence` after the final flush. -/
def sentChunksOf (text : List Char) (size overlap : Nat) : List (List Char) :=
  if (sentFoldSt text size overlap).2 = [] then (sentFoldSt text size overlap).1
  else (sentFoldSt text size overlap).1 ++ [pyStrip (sentFoldSt text size overlap).2]

/-- `split_text_by_sentence(text, chunk_size, chunk_overlap)`. -/
def splitTextBySentence (text : List Char) (size overlap : Nat) :
    List (List Char) :=
  if pyStrip text = [] then []
  else if sentSentencesOf text = [] then splitText (pyStrip text) size overlap
  else if 0 < overlap ∧ 1 < (sentChunksOf text size overlap).length then
    addOverlap overlap (sentChunksOf text size overlap)
  else (sentChunksOf text size overlap).filter (fun c => c ≠ [])

/-! ### `split_text_smart` and the dispatcher (lines 166–217) -/

/-- `split_text_smart(text, chunk_size, chunk_overlap)`. -/
def splitTextSmart (text : List Char) (size overlap : Nat) : List (List Char) :=
  if pyStrip text = [] then []
  else if 3 ≤ (paraPieces (pyStrip text)).length then
    splitTextByParagraph (pyStrip text) size overlap
  else if 5 ≤ (sentSentencesOf text).length then
    splitTextBySentence (pyStrip text) size overlap
  else splitText (pyStrip text) size overlap

/-- `split_text_by_strategy(text, strategy, chunk_size, chunk_overlap)`. -/
def splitTextByStrategy (text : List Char) (strategy : String)
    (size overlap : Nat) : List (List Char) :=
  if strategy = "paragraph" then splitTextByParagraph text size overlap
  else if strategy = "sentence" then splitTextBySentence text size overlap
  else if strategy = "smart" then splitTextSmart text size overlap
  else splitText text size overlap

/-! ### Supporting lemmas about stripping and the piece splitters -/

theorem mem_dropWhile_of_not {α : Type} {p : α → Bool} {l : List α} {c : α}
    (hc : c ∈ l) (hp : ¬ p c) : c ∈ l.dropWhile p := by
  induction l with
  | nil => simp at hc
  | cons a l ih =>
    by_cases ha : p a
    · rw [List.dropWhile_cons_of_pos ha]
      rcases List.mem_cons.mp hc with rfl | h2
      · exact absurd ha hp
      · exact ih h2
    · rwa [List.dropWhile_cons_of_neg ha]

theorem pyStrip_mem_of_nonspace {l : List Char} {c : Char}
    (hc : c ∈ l) (hp : ¬ pyIsSpace c) : c ∈ pyStrip l := by
  unfold pyStrip
  rw [List.mem_reverse]
  exact mem_dropWhile_of_not
    (List.mem_reverse.mpr (mem_dropWhile_of_not hc hp)) hp

theorem pyStrip_subset {l : List Char} {c : Char} (hc : c ∈ pyStrip l) : c ∈ l := by
  unfold pyStrip at hc
  exact mem_of_mem_dropWhile
    (List.mem_reverse.mp (mem_of_mem_dropWhile (List.mem_reverse.mp hc)))

theorem pyStrip_has_nonspace {l : List Char} (h : pyStrip l ≠ []) :
    ∃ c ∈ pyStrip l, ¬ pyIsSpace c := by
  have hBne : (l.dropWhile pyIsSpace).reverse.dropWhile pyIsSpace ≠ [] := by
    intro hb
    apply h
    unfold pyStrip
    rw [hb]
    rfl
  refine ⟨((l.dropWhile pyIsSpace).reverse.dropWhile pyIsSpace).head hBne, ?_, ?_⟩
  · unfold pyStrip
    rw [List.mem_reverse]
    exact List.head_mem hBne
  · have hh := List.head_dropWhile_not pyIsSpace (l.dropWhile pyIsSpace).reverse
      (w := hBne)
    simp [hh]

theorem replaceCRLF_cons (c : Char) (rest : List Char)
    (h : ∀ rest1, c = '\r' → rest = '\n' :: rest1 → False) :
    replaceCRLF (c :: rest) = c :: replaceCRLF rest := by
  rcases rest with _ | ⟨d, rest⟩
  · simp [replaceCRLF]
  · by_cases hc : c = '\r'
    · subst hc
      have hd : d ≠ '\n' := fun hdd => h rest rfl (by rw [hdd])
      simp [replaceCRLF, hd]
    · simp [replaceCRLF, hc]

theorem replaceCRLF_length_le (l : List Char) :
    (replaceCRLF l).length ≤ l.length := by
  induction l using replaceCRLF.induct with
  | case1 rest ih => simp only [replaceCRLF, List.length_cons]; omega
  | case2 c rest h ih =>
    rw [replaceCRLF_cons c rest h]
    simp only [List.length_cons]
    omega
  | case3 => simp [replaceCRLF]

theorem replaceCRLF_mem_of_nonspace {l : List Char} {c : Char}
    (hc : c ∈ l) (hp : ¬ pyIsSpace c) : c ∈ replaceCRLF l := by
  induction l using replaceCRLF.induct with
  | case1 rest ih =>
    have hcr : ¬ (c = '\r') := fun h => hp (by subst h; rfl)
    have hnl : ¬ (c = '\n') := fun h => hp (by subst h; rfl)
    simp only [replaceCRLF, List.mem_cons]
    rcases List.mem_cons.mp hc with rfl | h2
    · exact absurd rfl hcr
    · rcases List.mem_cons.mp h2 with rfl | h3
      · exact absurd rfl hnl
      · exact Or.inr (ih h3)
  | case2 a rest h ih =>
    rw [replaceCRLF_cons a rest h]
    rcases List.mem_cons.mp hc with rfl | h2
    · exact List.mem_cons_self _ _
    · exact List.mem_cons_of_mem _ (ih h2)
  | case3 => simp at hc

theorem paraAux_ne_nil (b : Bool) (l : List Char) : paraAux b l ≠ [] := by
  induction b, l using paraAux.induct with
  | case1 b => simp [paraAux]
  | case2 rest ih => simpa [paraAux] using ih
  | case3 rest ih => simp [paraAux]
  | case4 x c rest h1 h2 p ps heq ih =>
    have hx : paraAux x (c :: rest) = (c :: p) :: ps := by
      rcases x with _ | _
      · simp [paraAux, heq]
      · have hc : c ≠ '\n' := fun h => h1 rfl h
        simp [paraAux, hc, heq]
    simp [hx]
  | case5 x c rest h1 h2 heq ih =>
    have hx : paraAux x (c :: rest) = [[c]] := by
      rcases x with _ | _
      · simp [paraAux, heq]
      · have hc : c ≠ '\n' := fun h => h1 rfl h
        simp [paraAux, hc, heq]
    simp [hx]

/-- Total character budget of the paragraph pieces: the pieces plus two
separator characters between consecutive pieces fit in the input. -/
theorem paraAux_budget (b : Bool) (l : List Char) :
    ((paraAux b l).map List.length).sum + 2 * ((paraAux b l).length - 1)
      ≤ l.length := by
  induction b, l using paraAux.induct with
  | case1 b => simp [paraAux]
  | case2 rest ih =>
    have hx : paraAux true ('\n' :: rest) = paraAux true rest := by
      simp [paraAux]
    rw [hx]
    simp only [List.length_cons]
    omega
  | case3 rest ih =>
    have hx : paraAux false ('\n' :: '\n' :: rest) = [] :: paraAux true rest := by
      simp [paraAux]
    rw [hx]
    have hne := paraAux_ne_nil true rest
    have hlen : 1 ≤ (paraAux true rest).length := List.length_pos.mpr hne
    simp only [List.map_cons, List.sum_cons, List.length_cons, List.length_nil]
    omega
  | case4 x c rest h1 h2 p ps heq ih =>
    have hx : paraAux x (c :: rest) = (c :: p) :: ps := by
      rcases x with _ | _
      · simp [paraAux, heq]
      · have hc : c ≠ '\n' := fun h => h1 rfl h
        simp [paraAux, hc, heq]
    rw [hx]
    rw [heq] at ih
    simp only [List.map_cons, List.sum_cons, List.length_cons] at ih ⊢
    omega
  | case5 x c rest h1 h2 heq ih =>
    have hx : paraAux x (c :: rest) = [[c]] := by
      rcases x with _ | _
      · simp [paraAux, heq]
      · have hc : c ≠ '\n' := fun h => h1 rfl h
        simp [paraAux, hc, heq]
    rw [hx]
    simp

theorem sentAux_ne_nil (b : Bool) (l : List Char) : sentAux b l ≠ [] := by
  induction b, l using sentAux.induct <;> simp_all [sentAux]

/-- The sentence pieces never hold more characters than the input. -/
theorem sentAux_sum (b : Bool) (l : List Char) :
    ((sentAux b l).map List.length).sum ≤ l.length := by
  induction b, l using sentAux.induct with
  | case1 b => simp [sentAux]
  | case2 c rest hsp ih =>
    have hx : sentAux true (c :: rest) = sentAux true rest := by
      simp [sentAux, hsp]
    rw [hx]
    simp only [List.length_cons]
    omega
  | case3 c rest hsp hend ih =>
    have hx : sentAux true (c :: rest) = [c] :: sentAux true rest := by
      simp [sentAux, hsp, hend]
    rw [hx]
    simp only [List.map_cons, List.sum_cons, List.length_cons,
      List.length_nil]
    omega
  | case4 c rest hsp hend p ps heq ih =>
    have hx : sentAux true (c :: rest) = (c :: p) :: ps := by
      simp [sentAux, hsp, hend, heq]
    rw [hx]
    rw [heq] at ih
    simp only [List.map_cons, List.sum_cons, List.length_cons] at ih ⊢
    omega
  | case5 c rest hsp hend heq ih =>
    have hx : sentAux true (c :: rest) = [[c]] := by
      simp [sentAux, hsp, hend, heq]
    rw [hx]
    simp
  | case6 c rest hend ih =>
    have hx : sentAux false (c :: rest) = [c] :: sentAux true rest := by
      simp [sentAux, hend]
    rw [hx]
    simp only [List.map_cons, List.sum_cons, List.length_cons,
      List.length_nil]
    omega
  | case7 c rest hend p ps heq ih =>
    have hx : sentAux false (c :: rest) = (c :: p) :: ps := by
      simp [sentAux, hend, heq]
    rw [hx]
    rw [heq] at ih
    simp only [List.map_cons, List.sum_cons, List.length_cons] at ih ⊢
    omega
  | case8 c rest hend heq ih =>
    have hx : sentAux false (c :: rest) = [[c]] := by
      simp [sentAux, hend, heq]
    rw [hx]
    simp

/-! ### Chunk-size bounds for the paragraph and sentence strategies -/

theorem paraFold_bound (size overlap : Nat) :
    ∀ (ps : List (List Char)) (st : List (List Char) × List Char),
      (∀ c ∈ st.1, c.length ≤ size) → st.2.length ≤ size →
      (∀ c ∈ (ps.foldl (paraStep size overlap) st).1, c.length ≤ size) ∧
      (ps.foldl (paraStep size overlap) st).2.length ≤ size := by
  intro ps
  induction ps with
  | nil =>
    intro st h1 h2
    exact ⟨h1, h2⟩
  | cons p rest ih =>
    intro st h1 h2
    simp only [List.foldl_cons]
    have hflush : ∀ c ∈ st.1 ++ (if st.2 = [] then [] else [pyStrip st.2]),
        c.length ≤ size := by
      intro c hc
      rcases List.mem_append.mp hc with hcl | hcr
      · exact h1 c hcl
      · by_cases hb : st.2 = []
        · simp [hb] at hcr
        · simp only [if_neg hb, List.mem_singleton] at hcr
          subst hcr
          exact Nat.le_trans (pyStrip_length_le _) h2
    apply ih
    · intro c hc
      unfold paraStep at hc
      by_cases hlong : size < p.length
      · simp only [if_pos hlong] at hc
        rcases List.mem_append.mp hc with hcl | hcr
        · exact hflush c hcl
        · exact splitText_chunk_length p size overlap c hcr
      · simp only [if_neg hlong] at hc
        by_cases hcand :
            (if st.2 = [] then p else pyStrip (st.2 ++ ['\n', '\n'] ++ p)).length ≤ size
        · simp only [if_pos hcand] at hc
          exact h1 c hc
        · simp only [if_neg hcand] at hc
          exact hflush c hc
    · unfold paraStep
      by_cases hlong : size < p.length
      · simp [hlong]
      · simp only [if_neg hlong]
        by_cases hcand :
            (if st.2 = [] then p else pyStrip (st.2 ++ ['\n', '\n'] ++ p)).length ≤ size
        · rw [if_pos hcand]
          exact hcand
        · simp only [if_neg hcand]
          omega

theorem sentFold_bound (size overlap : Nat) :
    ∀ (ss : List (List Char)) (st : List (List Char) × List Char),
      (∀ c ∈ st.1, c.length ≤ size) → st.2.length ≤ size →
      (∀ c ∈ (ss.foldl (sentStep size overlap) st).1, c.length ≤ size) ∧
      (ss.foldl (sentStep size overlap) st).2.length ≤ size := by
  intro ss
  induction ss with
  | nil =>
    intro st h1 h2
    exact ⟨h1, h2⟩
  | cons s rest ih =>
    intro st h1 h2
    simp only [List.foldl_cons]
    have hflush : ∀ c ∈ st.1 ++ (if st.2 = [] then [] else [pyStrip st.2]),
        c.length ≤ size := by
      intro c hc
      rcases List.mem_append.mp hc with hcl | hcr
      · exact h1 c hcl
      · by_cases hb : st.2 = []
        · simp [hb] at hcr
        · simp only [if_neg hb, List.mem_singleton] at hcr
          subst hcr
          exact Nat.le_trans (pyStrip_length_le _) h2
    apply ih
    · intro c hc
      unfold sentStep at hc
      by_cases hlong : size < s.length
      · simp only [if_pos hlong] at hc
        rcases List.mem_append.mp hc with hcl | hcr
        · exact hflush c hcl
        · exact splitText_chunk_length s size overlap c hcr
      · simp only [if_neg hlong] at hc
        by_cases hcand : (if st.2 = [] then s else st.2 ++ s).length ≤ size
        · simp only [if_pos hcand] at hc
          exact h1 c hc
        · simp only [if_neg hcand] at hc
          exact hflush c hc
    · unfold sentStep
      by_cases hlong : size < s.length
      · simp [hlong]
      · simp only [if_neg hlong]
        by_cases hcand : (if st.2 = [] then s else st.2 ++ s).length ≤ size
        · rw [if_pos hcand]
          exact hcand
        · simp only [if_neg hcand]
          omega

theorem paraFoldSt_bound (text : List Char) (size overlap : Nat) :
    (∀ c ∈ (paraFoldSt text size overlap).1, c.length ≤ size) ∧
    (paraFoldSt text size overlap).2.length ≤ size :=
  paraFold_bound size overlap (paraParagraphsOf text) ([], [])
    (by intro c hc; simp at hc) (by simp)

theorem paraChunksOf_bound (text : List Char) (size overlap : Nat) :
    ∀ c ∈ paraChunksOf text size overlap, c.length ≤ size := by
  intro c hc
  unfold paraChunksOf at hc
  have hfold := paraFoldSt_bound text size overlap
  by_cases hb : (paraFoldSt text size overlap).2 = []
  · rw [if_pos hb] at hc
    exact hfold.1 c hc
  · rw [if_neg hb] at hc
    rcases List.mem_append.mp hc with hcl | hcr
    · exact hfold.1 c hcl
    · rcases List.mem_singleton.mp hcr with rfl
      exact Nat.le_trans (pyStrip_length_le _) hfold.2

/-- Every chunk of the paragraph strategy fits in the target size (force-split
pieces included, since `split_text` windows never exceed the size). -/
theorem splitTextByParagraph_chunk_length (text : List Char) (size overlap : Nat) :
    ∀ c ∈ splitTextByParagraph text size overlap, c.length ≤ size := by
  intro c hc
  unfold splitTextByParagraph at hc
  by_cases h0 : pyStrip text = []
  · simp [h0] at hc
  · simp only [if_neg h0] at hc
    by_cases hps : paraParagraphsOf text = []
    · rw [if_pos hps] at hc
      exact splitText_chunk_length _ size overlap c hc
    · rw [if_neg hps] at hc
      exact paraChunksOf_bound text size overlap c (List.mem_filter.mp hc).1

theorem addOverlap_bound (ov size : Nat) :
    ∀ l : List (List Char), (∀ c ∈ l, c.length ≤ size) →
      ∀ c ∈ addOverlap ov l, c.length ≤ size + ov := by
  intro l
  induction l using addOverlap.induct ov with
  | case1 => intro h c hc; simp [addOverlap] at hc
  | case2 c0 =>
    intro h c hc
    simp only [addOverlap, List.mem_singleton] at hc
    subst hc
    exact Nat.le_trans (h c (List.mem_singleton.mpr rfl)) (Nat.le_add_right _ _)
  | case3 c0 next rest ih =>
    intro h c hc
    simp only [addOverlap, List.mem_cons] at hc
    rcases hc with rfl | hc2
    · rw [List.length_append]
      have h1 := h c0 (List.mem_cons_self _ _)
      have h2 : (next.take ov).length ≤ ov := List.length_take_le _ _
      omega
    · exact ih (fun d hd => h d (List.mem_cons_of_mem _ hd)) c hc2

theorem addOverlap_ne_nil (ov : Nat) :
    ∀ l : List (List Char), (∀ c ∈ l, c ≠ []) →
      ∀ c ∈ addOverlap ov l, c ≠ [] := by
  intro l
  induction l using addOverlap.induct ov with
  | case1 => intro h c hc; simp [addOverlap] at hc
  | case2 c0 =>
    intro h c hc
    simp only [addOverlap, List.mem_singleton] at hc
    subst hc
    exact h c (List.mem_singleton.mpr rfl)
  | case3 c0 next rest ih =>
    intro h c hc
    simp only [addOverlap, List.mem_cons] at hc
    rcases hc with rfl | hc2
    · have h1 := h c0 (List.mem_cons_self _ _)
      intro hnil
      rcases List.append_eq_nil.mp hnil with ⟨h2, -⟩
      exact h1 h2
    · exact ih (fun d hd => h d (List.mem_cons_of_mem _ hd)) c hc2

theorem sentFoldSt_bound (text : List Char) (size overlap : Nat) :
    (∀ c ∈ (sentFoldSt text size overlap).1, c.length ≤ size) ∧
    (sentFoldSt text size overlap).2.length ≤ size :=
  sentFold_bound size overlap (sentSentencesOf text) ([], [])
    (by intro c hc; simp at hc) (by simp)

theorem sentChunksOf_bound (text : List Char) (size overlap : Nat) :
    ∀ c ∈ sentChunksOf text size overlap, c.length ≤ size := by
  intro c hc
  unfold sentChunksOf at hc
  have hfold := sentFoldSt_bound text size overlap
  by_cases hb : (sentFoldSt text size overlap).2 = []
  · rw [if_pos hb] at hc
    exact hfold.1 c hc
  · rw [if_neg hb] at hc
    rcases List.mem_append.mp hc with hcl | hcr
    · exact hfold.1 c hcl
    · rcases List.mem_singleton.mp hcr with rfl
      exact Nat.le_trans (pyStrip_length_le _) hfold.2

/-- Every chunk of the sentence strategy fits in size + overlap: the merge
keeps buffers within `size`, and the trailing-overlap pass adds at most
`overlap` characters. -/
theorem splitTextBySentence_chunk_length (text : List Char) (size overlap : Nat) :
    ∀ c ∈ splitTextBySentence text size overlap, c.length ≤ size + overlap := by
  intro c hc
  unfold splitTextBySentence at hc
  by_cases h0 : pyStrip text = []
  · simp [h0] at hc
  · simp only [if_neg h0] at hc
    by_cases hss : sentSentencesOf text = []
    · rw [if_pos hss] at hc
      exact Nat.le_trans (splitText_chunk_length _ size overlap c hc)
        (Nat.le_add_right _ _)
    · rw [if_neg hss] at hc
      by_cases hov : 0 < overlap ∧ 1 < (sentChunksOf text size overlap).length
      · rw [if_pos hov] at hc
        exact addOverlap_bound overlap size _ (sentChunksOf_bound text size overlap)
          c hc
      · rw [if_neg hov] at hc
        have := sentChunksOf_bound text size overlap c (List.mem_filter.mp hc).1
        omega

/-! ### Non-emptiness and single-chunk behaviour (claim C7) -/

theorem sum_length_filter_le (q : List Char → Bool) (xs : List (List Char)) :
    ((xs.filter q).map List.length).sum ≤ (xs.map List.length).sum := by
  induction xs with
  | nil => simp
  | cons x xs ih =>
    by_cases hq : q x
    · simp only [List.filter_cons_of_pos hq, List.map_cons, List.sum_cons]
      omega
    · simp only [List.filter_cons_of_neg hq, List.map_cons, List.sum_cons]
      omega

theorem sum_length_map_strip_le (xs : List (List Char)) :
    ((xs.map pyStrip).map List.length).sum ≤ (xs.map List.length).sum := by
  induction xs with
  | nil => simp
  | cons x xs ih =>
    simp only [List.map_cons, List.sum_cons]
    have := pyStrip_length_le x
    omega

theorem sum_map_add_two (xs : List (List Char)) :
    (xs.map (fun p => p.length + 2)).sum = (xs.map List.length).sum + 2 * xs.length := by
  induction xs with
  | nil => simp
  | cons x xs ih =>
    simp only [List.map_cons, List.sum_cons, List.length_cons]
    omega

theorem sentFold_ne (size overlap : Nat) :
    ∀ (ss : List (List Char)) (st : List (List Char) × List Char),
      (∀ c ∈ st.1, c ≠ []) →
      (st.2 = [] ∨ ∃ c ∈ st.2, ¬ pyIsSpace c) →
      (∀ s ∈ ss, ∃ c ∈ s, ¬ pyIsSpace c) →
      (∀ c ∈ (ss.foldl (sentStep size overlap) st).1, c ≠ []) ∧
      ((ss.foldl (sentStep size overlap) st).2 = [] ∨
        ∃ c ∈ (ss.foldl (sentStep size overlap) st).2, ¬ pyIsSpace c) := by
  intro ss
  induction ss with
  | nil =>
    intro st h1 h2 h3
    exact ⟨h1, h2⟩
  | cons s rest ih =>
    intro st h1 h2 h3
    simp only [List.foldl_cons]
    have hs := h3 s (List.mem_cons_self _ _)
    have hflush : ∀ c ∈ st.1 ++ (if st.2 = [] then [] else [pyStrip st.2]),
        c ≠ [] := by
      intro c hc
      rcases List.mem_append.mp hc with hcl | hcr
      · exact h1 c hcl
      · by_cases hb : st.2 = []
        · simp [hb] at hcr
        · simp only [if_neg hb, List.mem_singleton] at hcr
          subst hcr
          rcases h2 with h2 | ⟨d, hd, hdns⟩
          · exact absurd h2 hb
          · exact pyStrip_ne_nil_of_mem hd hdns
    apply ih
    · intro c hc
      unfold sentStep at hc
      by_cases hlong : size < s.length
      · simp only [if_pos hlong] at hc
        rcases List.mem_append.mp hc with hcl | hcr
        · exact hflush c hcl
        · exact splitText_chunk_ne_nil s size overlap c hcr
      · simp only [if_neg hlong] at hc
        by_cases hcand : (if st.2 = [] then s else st.2 ++ s).length ≤ size
        · simp only [if_pos hcand] at hc
          exact h1 c hc
        · simp only [if_neg hcand] at hc
          exact hflush c hc
    · unfold sentStep
      by_cases hlong : size < s.length
      · simp [hlong]
      · simp only [if_neg hlong]
        by_cases hcand : (if st.2 = [] then s else st.2 ++ s).length ≤ size
        · rw [if_pos hcand]
          right
          rcases hs with ⟨d, hd, hdns⟩
          by_cases hb : st.2 = []
          · refine ⟨d, ?_, hdns⟩
            simp only [if_pos hb]
            exact hd
          · refine ⟨d, ?_, hdns⟩
            simp only [if_neg hb]
            exact List.mem_append.mpr (Or.inr hd)
        · rw [if_neg hcand]
          right
          rcases hs with ⟨d, hd, hdns⟩
          exact ⟨d, hd, hdns⟩
    · intro q hq
      exact h3 q (List.mem_cons_of_mem _ hq)

/-- Every element of the `sentences` list holds a non-whitespace character. -/
theorem sentSentencesOf_nonspace (text : List Char) :
    ∀ s ∈ sentSentencesOf text, ∃ d ∈ s, ¬ pyIsSpace d := by
  intro s hsmem
  have h1 := (List.mem_filter.mp hsmem).1
  have h2 := (List.mem_filter.mp hsmem).2
  have hne : s ≠ [] := by simpa using h2
  rcases List.mem_map.mp h1 with ⟨piece, -, rfl⟩
  exact pyStrip_has_nonspace hne

theorem sentSentencesOf_ne_nil (text : List Char) :
    ∀ s ∈ sentSentencesOf text, s ≠ [] := by
  intro s hsmem
  have h2 := (List.mem_filter.mp hsmem).2
  simpa using h2

theorem paraParagraphsOf_nonspace (text : List Char) :
    ∀ p ∈ paraParagraphsOf text, ∃ d ∈ p, ¬ pyIsSpace d := by
  intro p hpmem
  have h1 := (List.mem_filter.mp hpmem).1
  have h2 := (List.mem_filter.mp hpmem).2
  have hne : p ≠ [] := by simpa using h2
  rcases List.mem_map.mp h1 with ⟨piece, -, rfl⟩
  exact pyStrip_has_nonspace hne

theorem sentFoldSt_ne (text : List Char) (size overlap : Nat) :
    (∀ c ∈ (sentFoldSt text size overlap).1, c ≠ []) ∧
    ((sentFoldSt text size overlap).2 = [] ∨
      ∃ c ∈ (sentFoldSt text size overlap).2, ¬ pyIsSpace c) :=
  sentFold_ne size overlap (sentSentencesOf text) ([], [])
    (by intro c hc; simp at hc) (Or.inl rfl) (sentSentencesOf_nonspace text)

theorem sentChunksOf_ne_nil (text : List Char) (size overlap : Nat) :
    ∀ c ∈ sentChunksOf text size overlap, c ≠ [] := by
  intro c hc
  unfold sentChunksOf at hc
  have hfold := sentFoldSt_ne text size overlap
  by_cases hb : (sentFoldSt text size overlap).2 = []
  · rw [if_pos hb] at hc
    exact hfold.1 c hc
  · rw [if_neg hb] at hc
    rcases List.mem_append.mp hc with hcl | hcr
    · exact hfold.1 c hcl
    · rcases List.mem_singleton.mp hcr with rfl
      rcases hfold.2 with h2 | ⟨e, he, hens⟩
      · exact absurd h2 hb
      · exact pyStrip_ne_nil_of_mem he hens

/-- No chunk of the sentence strategy is empty. -/
theorem splitTextBySentence_ne_nil (text : List Char) (size overlap : Nat) :
    ∀ c ∈ splitTextBySentence text size overlap, c ≠ [] := by
  intro c hc
  unfold splitTextBySentence at hc
  by_cases h0 : pyStrip text = []
  · simp [h0] at hc
  · simp only [if_neg h0] at hc
    by_cases hss : sentSentencesOf text = []
    · rw [if_pos hss] at hc
      exact splitText_chunk_ne_nil _ size overlap c hc
    · rw [if_neg hss] at hc
      by_cases hov : 0 < overlap ∧ 1 < (sentChunksOf text size overlap).length
      · rw [if_pos hov] at hc
        exact addOverlap_ne_nil overlap _ (sentChunksOf_ne_nil text size overlap)
          c hc
      · rw [if_neg hov] at hc
        have h2 := (List.mem_filter.mp hc).2
        simpa using h2

/-- No chunk of the paragraph strategy is empty (the final comprehension
filters empties out). -/
theorem splitTextByParagraph_ne_nil (text : List Char) (size overlap : Nat) :
    ∀ c ∈ splitTextByParagraph text size overlap, c ≠ [] := by
  intro c hc
  unfold splitTextByParagraph at hc
  by_cases h0 : pyStrip text = []
  · simp [h0] at hc
  · simp only [if_neg h0] at hc
    by_cases hps : paraParagraphsOf text = []
    · rw [if_pos hps] at hc
      exact splitText_chunk_ne_nil _ size overlap c hc
    · rw [if_neg hps] at hc
      have h2 := (List.mem_filter.mp hc).2
      simpa using h2

theorem splitText_single (text : List Char) (size overlap : Nat)
    (h0 : pyStrip text ≠ []) (h1 : text.length ≤ size) :
    splitText text size overlap = [pyStrip text] := by
  unfold splitText
  rw [if_neg h0, if_pos (Nat.le_trans (pyStrip_length_le text) h1)]

theorem sentFold_small (size overlap : Nat) :
    ∀ (ss : List (List Char)) (buf : List Char),
      (∀ s ∈ ss, s ≠ []) →
      buf.length + ((ss.map List.length).sum) ≤ size →
      (ss.foldl (sentStep size overlap) ([], buf)).1 = [] ∧
      ((buf ≠ [] ∨ ss ≠ []) → (ss.foldl (sentStep size overlap) ([], buf)).2 ≠ []) := by
  intro ss
  induction ss with
  | nil =>
    intro buf hne hbudget
    refine ⟨rfl, ?_⟩
    rintro (hb | hn)
    · exact hb
    · exact absurd rfl hn
  | cons s rest ih =>
    intro buf hne hbudget
    have hs_ne : s ≠ [] := hne s (List.mem_cons_self _ _)
    simp only [List.map_cons, List.sum_cons] at hbudget
    have hslen : s.length ≤ size := by omega
    have hstep : sentStep size overlap ([], buf) s
        = ([], if buf = [] then s else buf ++ s) := by
      unfold sentStep
      rw [if_neg (by omega : ¬ size < s.length)]
      have hcl : (if buf = [] then s else buf ++ s).length ≤ size := by
        by_cases hb : buf = []
        · simpa [hb] using hslen
        · rw [if_neg hb, List.length_append]
          omega
      rw [if_pos hcl]
    simp only [List.foldl_cons, hstep]
    have hcand_ne : (if buf = [] then s else buf ++ s) ≠ [] := by
      by_cases hb : buf = []
      · simpa [hb] using hs_ne
      · rw [if_neg hb]
        simp [hs_ne]
    have hcand_len : (if buf = [] then s else buf ++ s).length +
        ((rest.map List.length).sum) ≤ size := by
      by_cases hb : buf = []
      · rw [if_pos hb]
        simp only [hb, List.length_nil] at hbudget
        omega
      · rw [if_neg hb, List.length_append]
        omega
    have hrec := ih (if buf = [] then s else buf ++ s)
      (fun q hq => hne q (List.mem_cons_of_mem _ hq)) hcand_len
    exact ⟨hrec.1, fun _ => hrec.2 (Or.inl hcand_ne)⟩

/-- The total length of the sentence list never exceeds the stripped input. -/
theorem sentSentencesOf_sum_le (text : List Char) :
    ((sentSentencesOf text).map List.length).sum ≤ text.length := by
  have hA : ((sentSentencesOf text).map List.length).sum
      ≤ (((sentencePieces (pyStrip text)).map pyStrip).map List.length).sum := by
    unfold sentSentencesOf
    exact sum_length_filter_le _ _
  have hB := sum_length_map_strip_le (sentencePieces (pyStrip text))
  have hC : ((sentencePieces (pyStrip text)).map List.length).sum
      ≤ (pyStrip text).length := by
    unfold sentencePieces
    exact sentAux_sum false (pyStrip text)
  have hD := pyStrip_length_le text
  omega

/-- Input that is nonempty after stripping and fits in the target size
produces exactly one chunk under the sentence strategy. -/
theorem splitTextBySentence_single (text : List Char) (size overlap : Nat)
    (h0 : pyStrip text ≠ []) (h1 : text.length ≤ size) :
    (splitTextBySentence text size overlap).length = 1 := by
  unfold splitTextBySentence
  rw [if_neg h0]
  rcases pyStrip_has_nonspace h0 with ⟨w, hw, hwns⟩
  by_cases hss : sentSentencesOf text = []
  · rw [if_pos hss]
    rw [splitText_single (pyStrip text) size overlap
      (pyStrip_ne_nil_of_mem hw hwns)
      (Nat.le_trans (pyStrip_length_le text) h1)]
    rfl
  · rw [if_neg hss]
    have hsum : ((sentSentencesOf text).map List.length).sum ≤ size :=
      Nat.le_trans (sentSentencesOf_sum_le text) h1
    have hfold := sentFold_small size overlap (sentSentencesOf text) []
      (sentSentencesOf_ne_nil text) (by simpa using hsum)
    have hbufne : (sentFoldSt text size overlap).2 ≠ [] := hfold.2 (Or.inr hss)
    have hfold1 : (sentFoldSt text size overlap).1 = [] := hfold.1
    have hstrip_ne : pyStrip (sentFoldSt text size overlap).2 ≠ [] := by
      rcases (sentFoldSt_ne text size overlap).2 with h2 | ⟨e, he, hens⟩
      · exact absurd h2 hbufne
      · exact pyStrip_ne_nil_of_mem he hens
    have hchunks : sentChunksOf text size overlap
        = [pyStrip (sentFoldSt text size overlap).2] := by
      unfold sentChunksOf
      rw [if_neg hbufne, hfold1]
      rfl
    rw [hchunks]
    have hcond : ¬ (0 < overlap ∧
        1 < ([pyStrip (sentFoldSt text size overlap).2] : List (List Char)).length) := by
      rintro ⟨-, hlen⟩
      simp at hlen
    rw [if_neg hcond]
    simp [hstrip_ne]

theorem paraFold_small (size overlap : Nat) :
    ∀ (ps : List (List Char)) (buf : List Char),
      (∀ p ∈ ps, ∃ c ∈ p, ¬ pyIsSpace c) →
      ((buf = [] ∧ (ps.map List.length).sum + 2 * (ps.length - 1) ≤ size) ∨
       (buf ≠ [] ∧ (∃ c ∈ buf, ¬ pyIsSpace c) ∧
         buf.length + ((ps.map (fun p => p.length + 2)).sum) ≤ size)) →
      (ps.foldl (paraStep size overlap) ([], buf)).1 = [] ∧
      ((buf ≠ [] ∨ ps ≠ []) →
        (ps.foldl (paraStep size overlap) ([], buf)).2 ≠ [] ∧
        ∃ c ∈ (ps.foldl (paraStep size overlap) ([], buf)).2, ¬ pyIsSpace c) := by
  intro ps
  induction ps with
  | nil =>
    intro buf hns hbudget
    refine ⟨rfl, ?_⟩
    rintro (hb | hn)
    · rcases hbudget with ⟨hb2, -⟩ | ⟨-, hns2, -⟩
      · exact absurd hb2 hb
      · exact ⟨hb, hns2⟩
    · exact absurd rfl hn
  | cons p rest ih =>
    intro buf hns hbudget
    have hp := hns p (List.mem_cons_self _ _)
    have hp_ne : p ≠ [] := by
      rcases hp with ⟨c, hc, -⟩
      exact List.ne_nil_of_mem hc
    -- the candidate that the step produces, and its properties
    rcases hbudget with ⟨hbnil, hbud⟩ | ⟨hbne, hbns, hbud⟩
    · -- empty buffer: candidate is the paragraph itself
      subst hbnil
      simp only [List.map_cons, List.sum_cons, List.length_cons] at hbud
      have hplen : p.length ≤ size := by omega
      have hstep : paraStep size overlap ([], []) p = ([], p) := by
        unfold paraStep
        rw [if_neg (by omega : ¬ size < p.length)]
        simp [hplen]
      simp only [List.foldl_cons, hstep]
      have hrec := ih p (fun q hq => hns q (List.mem_cons_of_mem _ hq))
        (Or.inr ⟨hp_ne, hp, by rw [sum_map_add_two]; omega⟩)
      exact ⟨hrec.1, fun _ => hrec.2 (Or.inl hp_ne)⟩
    · -- nonempty buffer: candidate is strip(buffer ++ "\n\n" ++ paragraph)
      simp only [List.map_cons, List.sum_cons] at hbud
      have hplen : p.length ≤ size := by omega
      have hcandlen : (pyStrip (buf ++ ['\n', '\n'] ++ p)).length ≤ size := by
        have := pyStrip_length_le (buf ++ ['\n', '\n'] ++ p)
        simp only [List.length_append] at this
        simp only [List.length_cons, List.length_nil] at this
        omega
      have hstep : paraStep size overlap ([], buf) p
          = ([], pyStrip (buf ++ ['\n', '\n'] ++ p)) := by
        unfold paraStep
        rw [if_neg (by omega : ¬ size < p.length)]
        simp only [if_neg hbne]
        rw [if_pos hcandlen]
      simp only [List.foldl_cons, hstep]
      rcases hp with ⟨c, hc, hcns⟩
      have hcmem : c ∈ pyStrip (buf ++ ['\n', '\n'] ++ p) :=
        pyStrip_mem_of_nonspace
          (List.mem_append.mpr (Or.inr hc)) hcns
      have hcand_ne : pyStrip (buf ++ ['\n', '\n'] ++ p) ≠ [] :=
        List.ne_nil_of_mem hcmem
      have hrec := ih (pyStrip (buf ++ ['\n', '\n'] ++ p))
        (fun q hq => hns q (List.mem_cons_of_mem _ hq))
        (Or.inr ⟨hcand_ne, ⟨c, hcmem, hcns⟩, by
          have := pyStrip_length_le (buf ++ ['\n', '\n'] ++ p)
          simp only [List.length_append, List.length_cons,
            List.length_nil] at this
          omega⟩)
      exact ⟨hrec.1, fun _ => hrec.2 (Or.inl hcand_ne)⟩

/-- Input that is nonempty after stripping and fits in the target size
produces exactly one chunk under the paragraph strategy. -/
theorem splitTextByParagraph_single (text : List Char) (size overlap : Nat)
    (h0 : pyStrip text ≠ []) (h1 : text.length ≤ size) :
    (splitTextByParagraph text size overlap).length = 1 := by
  unfold splitTextByParagraph
  rw [if_neg h0]
  rcases pyStrip_has_nonspace h0 with ⟨w, hw, hwns⟩
  have hw_text : w ∈ text := pyStrip_subset hw
  have hw_t : w ∈ pyStrip (replaceCRLF text) :=
    pyStrip_mem_of_nonspace (replaceCRLF_mem_of_nonspace hw_text hwns) hwns
  have ht_ne : pyStrip (replaceCRLF text) ≠ [] := List.ne_nil_of_mem hw_t
  have ht_len : (pyStrip (replaceCRLF text)).length ≤ size :=
    Nat.le_trans (pyStrip_length_le _)
      (Nat.le_trans (replaceCRLF_length_le _) h1)
  by_cases hps : paraParagraphsOf text = []
  · rw [if_pos hps]
    rw [splitText_single (pyStrip (replaceCRLF text)) size overlap
      (pyStrip_ne_nil_of_mem hw_t hwns) ht_len]
    rfl
  · rw [if_neg hps]
    have hbudget : ((paraParagraphsOf text).map List.length).sum
        + 2 * ((paraParagraphsOf text).length - 1) ≤ size := by
      have hA : ((paraParagraphsOf text).map List.length).sum
          ≤ (((paraPieces (pyStrip (replaceCRLF text))).map pyStrip).map
              List.length).sum := by
        unfold paraParagraphsOf
        exact sum_length_filter_le _ _
      have hB := sum_length_map_strip_le (paraPieces (pyStrip (replaceCRLF text)))
      have hC : ((paraPieces (pyStrip (replaceCRLF text))).map List.length).sum
          + 2 * ((paraPieces (pyStrip (replaceCRLF text))).length - 1)
          ≤ (pyStrip (replaceCRLF text)).length := by
        unfold paraPieces
        exact paraAux_budget false (pyStrip (replaceCRLF text))
      have hD : (paraParagraphsOf text).length
          ≤ ((paraPieces (pyStrip (replaceCRLF text))).map pyStrip).length := by
        unfold paraParagraphsOf
        exact List.length_filter_le _ _
      have hE : ((paraPieces (pyStrip (replaceCRLF text))).map pyStrip).length
          = (paraPieces (pyStrip (replaceCRLF text))).length :=
        List.length_map _ _
      omega
    have hfold := paraFold_small size overlap (paraParagraphsOf text) []
      (paraParagraphsOf_nonspace text) (Or.inl ⟨rfl, hbudget⟩)
    have hres := hfold.2 (Or.inr hps)
    have hbufne : (paraFoldSt text size overlap).2 ≠ [] := hres.1
    have hstrip_ne : pyStrip (paraFoldSt text size overlap).2 ≠ [] := by
      rcases hres.2 with ⟨e, he, hens⟩
      exact pyStrip_ne_nil_of_mem he hens
    have hchunks : paraChunksOf text size overlap
        = [pyStrip (paraFoldSt text size overlap).2] := by
      unfold paraChunksOf
      rw [if_neg hbufne]
      have hfold1 : (paraFoldSt text size overlap).1 = [] := hfold.1
      rw [hfold1]
      rfl
    rw [hchunks]
    simp [hstrip_ne]

/-! ### The `smart` strategy and the dispatcher -/

theorem splitTextSmart_chunk_length (text : List Char) (size overlap : Nat) :
    ∀ c ∈ splitTextSmart text size overlap, c.length ≤ size + overlap := by
  intro c hc
  unfold splitTextSmart at hc
  by_cases h0 : pyStrip text = []
  · simp [h0] at hc
  · simp only [if_neg h0] at hc
    by_cases h3 : 3 ≤ (paraPieces (pyStrip text)).length
    · rw [if_pos h3] at hc
      exact Nat.le_trans (splitTextByParagraph_chunk_length _ size overlap c hc)
        (Nat.le_add_right _ _)
    · rw [if_neg h3] at hc
      by_cases h5 : 5 ≤ (sentSentencesOf text).length
      · rw [if_pos h5] at hc
        exact splitTextBySentence_chunk_length _ size overlap c hc
      · rw [if_neg h5] at hc
        exact Nat.le_trans (splitText_chunk_length _ size overlap c hc)
          (Nat.le_add_right _ _)

theorem splitTextSmart_ne_nil (text : List Char) (size overlap : Nat) :
    ∀ c ∈ splitTextSmart text size overlap, c ≠ [] := by
  intro c hc
  unfold splitTextSmart at hc
  by_cases h0 : pyStrip text = []
  · simp [h0] at hc
  · simp only [if_neg h0] at hc
    by_cases h3 : 3 ≤ (paraPieces (pyStrip text)).length
    · rw [if_pos h3] at hc
      exact splitTextByParagraph_ne_nil _ size overlap c hc
    · rw [if_neg h3] at hc
      by_cases h5 : 5 ≤ (sentSentencesOf text).length
      · rw [if_pos h5] at hc
        exact splitTextBySentence_ne_nil _ size overlap c hc
      · rw [if_neg h5] at hc
        exact splitText_chunk_ne_nil _ size overlap c hc

theorem splitTextSmart_single (text : List Char) (size overlap : Nat)
    (h0 : pyStrip text ≠ []) (h1 : text.length ≤ size) :
    (splitTextSmart text size overlap).length = 1 := by
  unfold splitTextSmart
  rw [if_neg h0]
  rcases pyStrip_has_nonspace h0 with ⟨w, hw, hwns⟩
  have h0s : pyStrip (pyStrip text) ≠ [] := pyStrip_ne_nil_of_mem hw hwns
  have h1s : (pyStrip text).length ≤ size := Nat.le_trans (pyStrip_length_le text) h1
  by_cases h3 : 3 ≤ (paraPieces (pyStrip text)).length
  · rw [if_pos h3]
    exact splitTextByParagraph_single (pyStrip text) size overlap h0s h1s
  · rw [if_neg h3]
    by_cases h5 : 5 ≤ (sentSentencesOf text).length
    · rw [if_pos h5]
      exact splitTextBySentence_single (pyStrip text) size overlap h0s h1s
    · rw [if_neg h5]
      rw [splitText_single (pyStrip text) size overlap h0s h1s]
      rfl

theorem splitTextByStrategy_fixed (text : List Char) (size overlap : Nat) :
    splitTextByStrategy text "fixed" size overlap = splitText text size overlap :=
  rfl

theorem splitTextByStrategy_paragraph (text : List Char) (size overlap : Nat) :
    splitTextByStrategy text "paragraph" size overlap
      = splitTextByParagraph text size overlap :=
  rfl

theorem splitTextByStrategy_sentence (text : List Char) (size overlap : Nat) :
    splitTextByStrategy text "sentence" size overlap
      = splitTextBySentence text size overlap :=
  rfl

theorem splitTextByStrategy_smart (text : List Char) (size overlap : Nat) :
    splitTextByStrategy text "smart" size overlap
      = splitTextSmart text size overlap :=
  rfl

theorem splitText_empty (text : List Char) (size overlap : Nat)
    (h0 : pyStrip text = []) : splitText text size overlap = [] := by
  unfold splitText
  rw [if_pos h0]

theorem splitTextByParagraph_empty (text : List Char) (size overlap : Nat)
    (h0 : pyStrip text = []) : splitTextByParagraph text size overlap = [] := by
  unfold splitTextByParagraph
  rw [if_pos h0]

theorem splitTextBySentence_empty (text : List Char) (size overlap : Nat)
    (h0 : pyStrip text = []) : splitTextBySentence text size overlap = [] := by
  unfold splitTextBySentence
  rw [if_pos h0]

theorem splitTextSmart_empty (text : List Char) (size overlap : Nat)
    (h0 : pyStrip text = []) : splitTextSmart text size overlap = [] := by
  unfold splitTextSmart
  rw [if_pos h0]

/-! Sanity checks against hand-traced Python behaviour. -/

example : splitTextBySentence "ab.cd.ef.".toList 3 2 =
    ["ab.cd".toList, "cd.ef".toList, "ef.".toList] := by decide

example : splitTextByParagraph "aa\n\nbb\n\ncc".toList 20 2 =
    ["aa\n\nbb\n\ncc".toList] := by decide

example : splitTextByParagraph "aa\n\nbb\n\ncc".toList 5 1 =
    ["aa".toList, "bb".toList, "cc".toList] := by decide

example : splitTextSmart "a b c".toList 3 1 =
    ["a b".toList, "b c".toList, "c".toList] := by decide

/-! ### Claims C3, C6, C7, C10 — the chunker -/

/-- C3 (counterexample): under the `sentence` strategy with size 3 and
overlap 2, the input "ab.cd.ef." produces the chunk "ab.cd" of length 5 > 3,
although every sentence piece has length ≤ 3 — so the oversized chunk is not
the result of force-splitting an oversized semantic unit, refuting the claim
that every passage fits in the target size except force-split units. -/
theorem claim_C3_counterexample :
    "ab.cd".toList ∈ splitTextByStrategy "ab.cd.ef.".toList "sentence" 3 2 ∧
    3 < ("ab.cd".toList).length ∧
    (∀ s ∈ sentSentencesOf "ab.cd.ef.".toList, s.length ≤ 3) := by
  decide

/-- C3 (amended): every passage returned by the chunker has length ≤ the
target size under the `fixed` and `paragraph` strategies (force-split
passages included); under the `sentence` strategy — and `smart`, which can
delegate to it — the trailing-overlap pass can extend a passage to at most
size + overlap. -/
theorem claim_C3_amended (text : List Char) (size overlap : Nat) :
    (∀ c ∈ splitTextByStrategy text "fixed" size overlap, c.length ≤ size) ∧
    (∀ c ∈ splitTextByStrategy text "paragraph" size overlap, c.length ≤ size) ∧
    (∀ c ∈ splitTextByStrategy text "sentence" size overlap,
      c.length ≤ size + overlap) ∧
    (∀ c ∈ splitTextByStrategy text "smart" size overlap,
      c.length ≤ size + overlap) := by
  refine ⟨?_, ?_, ?_, ?_⟩
  · rw [splitTextByStrategy_fixed]
    exact splitText_chunk_length text size overlap
  · rw [splitTextByStrategy_paragraph]
    exact splitTextByParagraph_chunk_length text size overlap
  · rw [splitTextByStrategy_sentence]
    exact splitTextBySentence_chunk_length text size overlap
  · rw [splitTextByStrategy_smart]
    exact splitTextSmart_chunk_length text size overlap

/-- C6 (counterexample): `split_text` strips its input first, so an input
with trailing whitespace is not reconstructed exactly: for "a " the single
chunk is "a" and the concatenation differs from the original input. -/
theorem claim_C6_counterexample :
    reconstruct 1 (splitText "a ".toList 3 1) ≠ "a ".toList := by
  decide

/-- C6 (amended): for every input and every overlap < size, concatenating
the chunks of the `fixed` strategy with each chunk's declared overlap (the
leading `overlap` characters of every chunk after the first) removed
reconstructs the whitespace-stripped input text exactly. -/
theorem claim_C6_amended (text : List Char) (size overlap : Nat)
    (hov : overlap < size) :
    reconstruct overlap (splitText text size overlap) = pyStrip text :=
  splitText_reconstruct text size overlap hov

/-- Witness for C6 at a concrete input. -/
theorem claim_C6_witness :
    1 < 3 ∧ reconstruct 1 (splitText "abcdef".toList 3 1)
      = pyStrip "abcdef".toList :=
  ⟨by decide, claim_C6_amended "abcdef".toList 3 1 (by decide)⟩

/-- C7 (counterexample): the `fixed` strategy can return a whitespace-only
chunk: splitting "a    b" with size 2 and overlap 0 yields the chunk "  "
(two spaces), refuting "no returned chunk is empty or whitespace-only". -/
theorem claim_C7_counterexample :
    [' ', ' '] ∈ splitTextByStrategy "a    b".toList "fixed" 2 0 ∧
    [' ', ' '] ≠ ([] : List Char) ∧
    (∀ c ∈ ([' ', ' '] : List Char), pyIsSpace c) := by
  decide

/-- C7 (amended): for every strategy in {fixed, paragraph, sentence, smart}:
empty or whitespace-only input yields an empty list; input that is nonempty
after stripping and whose length is at most the target size yields exactly
one chunk; and no returned chunk is empty (a chunk may however be
whitespace-only when the fixed window cuts an interior whitespace run). -/
theorem claim_C7_amended (text : List Char) (strategy : String)
    (size overlap : Nat)
    (hs : strategy ∈ (["fixed", "paragraph", "sentence", "smart"] : List String)) :
    (pyStrip text = [] → splitTextByStrategy text strategy size overlap = []) ∧
    (pyStrip text ≠ [] → text.length ≤ size →
      (splitTextByStrategy text strategy size overlap).length = 1) ∧
    (∀ c ∈ splitTextByStrategy text strategy size overlap, c ≠ []) := by
  simp only [List.mem_cons, List.mem_singleton] at hs
  rcases hs with rfl | rfl | rfl | rfl | h
  · rw [splitTextByStrategy_fixed]
    exact ⟨splitText_empty text size overlap,
      fun h0 h1 => by rw [splitText_single text size overlap h0 h1]; rfl,
      splitText_chunk_ne_nil text size overlap⟩
  · rw [splitTextByStrategy_paragraph]
    exact ⟨splitTextByParagraph_empty text size overlap,
      splitTextByParagraph_single text size overlap,
      splitTextByParagraph_ne_nil text size overlap⟩
  · rw [splitTextByStrategy_sentence]
    exact ⟨splitTextBySentence_empty text size overlap,
      splitTextBySentence_single text size overlap,
      splitTextBySentence_ne_nil text size overlap⟩
  · rw [splitTextByStrategy_smart]
    exact ⟨splitTextSmart_empty text size overlap,
      splitTextSmart_single text size overlap,
      splitTextSmart_ne_nil text size overlap⟩
  · exact absurd h (by simp)

/-- Witness for C7 at a concrete strategy and input. -/
theorem claim_C7_witness :
    ("sentence" ∈ (["fixed", "paragraph", "sentence", "smart"] : List String)) ∧
    ((pyStrip "hi.".toList = [] →
        splitTextByStrategy "hi.".toList "sentence" 5 1 = []) ∧
     (pyStrip "hi.".toList ≠ [] → ("hi.".toList).length ≤ 5 →
        (splitTextByStrategy "hi.".toList "sentence" 5 1).length = 1) ∧
     (∀ c ∈ splitTextByStrategy "hi.".toList "sentence" 5 1, c ≠ [])) :=
  ⟨by decide, claim_C7_amended "hi.".toList "sentence" 5 1 (by decide)⟩

/-- C10 (confirmed): for input whose stripped form is longer than the chunk
size (so the window loop runs), `split_text` terminates exactly when the
stride `chunk_size − chunk_overlap` is positive; and whenever
`overlap < size` it terminates on every input. -/
theorem claim_C10 (text : List Char) (size overlap : Nat) :
    (size < (pyStrip text).length →
      (SplitTextTerminates text size overlap ↔ 0 < size - overlap)) ∧
    (overlap < size → SplitTextTerminates text size overlap) := by
  constructor
  · intro hlong
    constructor
    · intro hterm
      by_contra hz
      have hstride : size - overlap = 0 := by omega
      rcases hterm with h1 | ⟨fuel, h2⟩
      · omega
      · rw [fixedLoop_none_of_stride_zero hstride (by omega)] at h2
        simp at h2
    · intro hpos
      right
      refine ⟨(pyStrip text).length, fixedLoop_isSome_of_le _ 0 ?_⟩
      have := Nat.mul_le_mul_left (pyStrip text).length hpos
      omega
  · intro hov
    by_cases hlong : size < (pyStrip text).length
    · right
      refine ⟨(pyStrip text).length, fixedLoop_isSome_of_le _ 0 ?_⟩
      have hpos : 0 < size - overlap := by omega
      have := Nat.mul_le_mul_left (pyStrip text).length hpos
      omega
    · left
      omega

/-- Witness for C10 at concrete inputs. -/
theorem claim_C10_witness :
    (SplitTextTerminates "abcde".toList 2 1 ↔ 0 < 2 - 1) ∧
    SplitTextTerminates "abcde".toList 2 1 :=
  ⟨(claim_C10 "abcde".toList 2 1).1 (by decide),
   (claim_C10 "abcde".toList 2 1).2 (by decide)⟩

/-! ### Stable descending sort — the semantics of Python's
`sorted(..., key=..., reverse=True)` / `list.sort(key=..., reverse=True)`.

Python's sort is stable; with `reverse=True` an element goes before another
exactly when its key is strictly greater, or the keys are equal and it came
first.  Stable sorting is unique, so this insertion sort computes the same
list as CPython's timsort. -/

/-- Insert `x` before the first element whose key is ≤ `x`'s key (`le y x`). -/
def insDesc {α : Type} (le : α → α → Bool) (x : α) : List α → List α
  | [] => [x]
  | y :: ys => if le y x then x :: y :: ys else y :: insDesc le x ys

/-- Stable descending sort. -/
def sortDesc {α : Type} (le : α → α → Bool) : List α → List α
  | [] => []
  | x :: xs => insDesc le x (sortDesc le xs)

theorem insDesc_perm {α : Type} (le : α → α → Bool) (x : α) :
    ∀ l : List α, (insDesc le x l).Perm (x :: l) := by
  intro l
  induction l with
  | nil => simp [insDesc]
  | cons y ys ih =>
    by_cases h : le y x
    · simp [insDesc, h]
    · simp only [insDesc, if_neg h]
      exact List.Perm.trans (ih.cons y) (List.Perm.swap x y ys)

theorem sortDesc_perm {α : Type} (le : α → α → Bool) :
    ∀ l : List α, (sortDesc le l).Perm l := by
  intro l
  induction l with
  | nil => simp [sortDesc]
  | cons x xs ih =>
    exact List.Perm.trans (insDesc_perm le x (sortDesc le xs)) (ih.cons x)

theorem insDesc_pairwise {α : Type} {le : α → α → Bool}
    (htot : ∀ a b, le a b ≠ true → le b a = true)
    (htrans : ∀ a b c, le a b = true → le b c = true → le a c = true)
    (x : α) :
    ∀ l : List α, l.Pairwise (fun a b => le b a = true) →
      (insDesc le x l).Pairwise (fun a b => le b a = true) := by
  intro l
  induction l with
  | nil => intro _; simp [insDesc]
  | cons y ys ih =>
    intro hp
    rcases List.pairwise_cons.mp hp with ⟨hy, hys⟩
    by_cases h : le y x
    · simp only [insDesc, if_pos h]
      refine List.pairwise_cons.mpr ⟨?_, hp⟩
      intro z hz
      rcases List.mem_cons.mp hz with rfl | hz2
      · exact h
      · exact htrans _ _ _ (hy z hz2) h
    · simp only [insDesc, if_neg h]
      refine List.pairwise_cons.mpr ⟨?_, ih hys⟩
      intro z hz
      have hz2 : z = x ∨ z ∈ ys :=
        List.mem_cons.mp ((insDesc_perm le x ys).mem_iff.mp hz)
      rcases hz2 with rfl | hz3
      · exact htot y z h
      · exact hy z hz3

theorem sortDesc_pairwise {α : Type} {le : α → α → Bool}
    (htot : ∀ a b, le a b ≠ true → le b a = true)
    (htrans : ∀ a b c, le a b = true → le b c = true → le a c = true) :
    ∀ l : List α, (sortDesc le l).Pairwise (fun a b => le b a = true) := by
  intro l
  induction l with
  | nil => simp [sortDesc]
  | cons x xs ih => exact insDesc_pairwise htot htrans x (sortDesc le xs) ih

/-! ### The retrieval data model

A retrieval result dict: `chunk_id / similarity / source / bm25_score`.
The payload columns (chunk text, table name, row id) play no role in the
claims and are omitted. -/

structure RItem where
  chunk_id : Nat
  similarity : ℚ
  source : Option String
  bm25_score : Option ℚ
deriving DecidableEq

/-- Sort key of `merge_results`: `(0 if source == "vector" else 1, similarity)`. -/
def mergeKey (x : RItem) : Nat × ℚ :=
  (if x.source = some "vector" then 0 else 1, x.similarity)

/-- Lexicographic ≤ on (priority, similarity) keys. -/
def keyLE (a b : Nat × ℚ) : Bool :=
  decide (a.1 < b.1 ∨ (a.1 = b.1 ∧ a.2 ≤ b.2))

def mergeLE (a b : RItem) : Bool := keyLE (mergeKey a) (mergeKey b)

/-- ≤ on similarity, for the pre-merge sort of the vector results. -/
def simLE (a b : RItem) : Bool := decide (a.similarity ≤ b.similarity)

/-- `item.setdefault("source", "keyword")`. -/
def kwTag (item : RItem) : RItem :=
  { item with source := some (item.source.getD "keyword") }

/-- `item["source"] = "vector"`. -/
def vecTag (item : RItem) : RItem := { item with source := some "vector" }

/-- One iteration of the dedup-insert loops of `merge_results`: skip an item
whose chunk id was already seen, else tag it and append it. -/
def dedupStep (tag : RItem → RItem) (st : List RItem × List Nat) (item : RItem) :
    List RItem × List Nat :=
  if item.chunk_id ∈ st.2 then st
  else (st.1 ++ [tag item], st.2 ++ [item.chunk_id])

/-- The fused list of `merge_results` before the final sort and truncation:
keyword/BM25 results first (deduplicated, `setdefault` tag), then the
similarity-sorted vector results whose ids are new (tagged "vector"). -/
def mergedOf (vector_results keyword_results : List RItem) : List RItem :=
  ((sortDesc simLE vector_results).foldl (dedupStep vecTag)
    (keyword_results.foldl (dedupStep kwTag) ([], []))).1

/-- `merge_results(vector_results, keyword_results, top_k)`. -/
def mergeResults (vector_results keyword_results : List RItem) (top_k : Nat) :
    List RItem :=
  (sortDesc mergeLE (mergedOf vector_results keyword_results)).take top_k

/-- `get_max_similarity(results)`: the maximum similarity among results whose
source is "vector"; 0.0 when there is none (`max(..., default=0.0)`). -/
def getMaxSimilarity (results : List RItem) : ℚ :=
  match (results.filter (fun r => r.source = some "vector")).map
      (fun r => r.similarity) with
  | [] => 0
  | x :: xs => xs.foldl max x

/-- A `document_chunks` row as returned by the ILIKE query (payload columns
omitted). -/
structure DbRow where
  chunk_id : Nat
deriving DecidableEq

/-- `keyword_search(db, keywords, top_k, data_source_id)`: the SQL matching is
an oracle (`rows`); the function's own post-processing assigns each row the
fixed similarity 0.99 and the source tag "keyword". -/
def keywordSearch (keywords : List (List Char)) (rows : List DbRow) : List RItem :=
  if keywords = [] then []
  else rows.map (fun r =>
    { chunk_id := r.chunk_id, similarity := mkRat 99 100,
      source := some "keyword", bm25_score := none })

/-! Sanity check of merge semantics against the Python code. -/

example :
    mergeResults
      [⟨7, mkRat 8 10, none, none⟩, ⟨9, mkRat 95 100, none, none⟩]
      [⟨5, mkRat 1 2, some "bm25", some 3⟩]
      3
    = [⟨5, mkRat 1 2, some "bm25", some 3⟩, ⟨9, mkRat 95 100, some "vector", none⟩,
       ⟨7, mkRat 8 10, some "vector", none⟩] := by decide

example : getMaxSimilarity
    [⟨5, mkRat 99 100, some "keyword", none⟩, ⟨7, mkRat 8 10, some "vector", none⟩,
     ⟨9, mkRat 9 10, some "vector", none⟩] = mkRat 9 10 := by decide

/-! ### Properties of the merge comparator and the dedup folds -/

theorem keyLE_total (a b : Nat × ℚ) (h : keyLE a b ≠ true) : keyLE b a = true := by
  simp only [ne_eq, keyLE, decide_eq_true_eq] at h ⊢
  rcases Nat.lt_trichotomy a.1 b.1 with h1 | h1 | h1
  · exact absurd (Or.inl h1) h
  · rcases le_total a.2 b.2 with h2 | h2
    · exact absurd (Or.inr ⟨h1, h2⟩) h
    · exact Or.inr ⟨h1.symm, h2⟩
  · exact Or.inl h1

theorem keyLE_trans (a b c : Nat × ℚ) (h1 : keyLE a b = true)
    (h2 : keyLE b c = true) : keyLE a c = true := by
  simp only [keyLE, decide_eq_true_eq] at h1 h2 ⊢
  rcases h1 with h1 | ⟨h1e, h1s⟩
  · rcases h2 with h2 | ⟨h2e, h2s⟩
    · exact Or.inl (Nat.lt_trans h1 h2)
    · exact Or.inl (h2e ▸ h1)
  · rcases h2 with h2 | ⟨h2e, h2s⟩
    · exact Or.inl (h1e ▸ h2)
    · exact Or.inr ⟨h1e.trans h2e, le_trans h1s h2s⟩

theorem mergeLE_total (a b : RItem) (h : mergeLE a b ≠ true) : mergeLE b a = true :=
  keyLE_total _ _ h

theorem mergeLE_trans (a b c : RItem) (h1 : mergeLE a b = true)
    (h2 : mergeLE b c = true) : mergeLE a c = true :=
  keyLE_trans _ _ _ h1 h2

theorem simLE_total (a b : RItem) (h : simLE a b ≠ true) : simLE b a = true := by
  simp only [ne_eq, simLE, decide_eq_true_eq] at h ⊢
  rcases le_total a.similarity b.similarity with h2 | h2
  · exact absurd h2 h
  · exact h2

theorem dedupStep_pos (tag : RItem → RItem) (st : List RItem × List Nat)
    (item : RItem) (h : item.chunk_id ∈ st.2) : dedupStep tag st item = st := by
  unfold dedupStep
  rw [if_pos h]

theorem dedupStep_neg (tag : RItem → RItem) (st : List RItem × List Nat)
    (item : RItem) (h : item.chunk_id ∉ st.2) :
    dedupStep tag st item = (st.1 ++ [tag item], st.2 ++ [item.chunk_id]) := by
  unfold dedupStep
  rw [if_neg h]

theorem kwTag_chunk_id (x : RItem) : (kwTag x).chunk_id = x.chunk_id := rfl

theorem vecTag_chunk_id (x : RItem) : (vecTag x).chunk_id = x.chunk_id := rfl

/-- The seen set tracks exactly the chunk ids of the inserted items. -/
theorem dedupFold_seen_inv (tag : RItem → RItem)
    (htag : ∀ x, (tag x).chunk_id = x.chunk_id) :
    ∀ (items : List RItem) (st : List RItem × List Nat),
      st.2 = st.1.map RItem.chunk_id →
      (items.foldl (dedupStep tag) st).2
        = (items.foldl (dedupStep tag) st).1.map RItem.chunk_id := by
  intro items
  induction items with
  | nil => intro st h; exact h
  | cons item rest ih =>
    intro st h
    simp only [List.foldl_cons]
    by_cases hseen : item.chunk_id ∈ st.2
    · rw [dedupStep_pos tag st item hseen]
      exact ih st h
    · rw [dedupStep_neg tag st item hseen]
      apply ih
      simp [h, htag]

theorem dedupFold_seen_nodup (tag : RItem → RItem) :
    ∀ (items : List RItem) (st : List RItem × List Nat),
      st.2.Nodup → (items.foldl (dedupStep tag) st).2.Nodup := by
  intro items
  induction items with
  | nil => intro st h; exact h
  | cons item rest ih =>
    intro st h
    simp only [List.foldl_cons]
    by_cases hseen : item.chunk_id ∈ st.2
    · rw [dedupStep_pos tag st item hseen]
      exact ih st h
    · rw [dedupStep_neg tag st item hseen]
      apply ih
      rw [List.nodup_append]
      refine ⟨h, List.nodup_singleton _, ?_⟩
      intro a ha hb
      rcases List.mem_singleton.mp hb with rfl
      exact hseen ha

/-- Ids end up in the seen set exactly when they were already seen or occur
among the processed items. -/
theorem dedupFold_seen_mem (tag : RItem → RItem) :
    ∀ (items : List RItem) (st : List RItem × List Nat) (id : Nat),
      (id ∈ (items.foldl (dedupStep tag) st).2 ↔
        id ∈ st.2 ∨ id ∈ items.map RItem.chunk_id) := by
  intro items
  induction items with
  | nil => intro st id; simp
  | cons item rest ih =>
    intro st id
    simp only [List.foldl_cons, List.map_cons, List.mem_cons]
    by_cases hseen : item.chunk_id ∈ st.2
    · rw [dedupStep_pos tag st item hseen, ih]
      constructor
      · rintro (h | h)
        · exact Or.inl h
        · exact Or.inr (Or.inr h)
      · rintro (h | h | h)
        · exact Or.inl h
        · exact Or.inl (h ▸ hseen)
        · exact Or.inr h
    · rw [dedupStep_neg tag st item hseen, ih]
      simp only [List.mem_append, List.mem_singleton]
      constructor
      · rintro ((h | h) | h)
        · exact Or.inl h
        · exact Or.inr (Or.inl h)
        · exact Or.inr (Or.inr h)
      · rintro (h | h | h)
        · exact Or.inl (Or.inl h)
        · exact Or.inl (Or.inr h)
        · exact Or.inr h

/-- Every inserted item is either inherited from the initial state or the tag
of a processed item whose id was not initially seen. -/
theorem dedupFold_fst_mem (tag : RItem → RItem) :
    ∀ (items : List RItem) (st : List RItem × List Nat) (r : RItem),
      r ∈ (items.foldl (dedupStep tag) st).1 →
      r ∈ st.1 ∨ ∃ x ∈ items, r = tag x ∧ x.chunk_id ∉ st.2 := by
  intro items
  induction items with
  | nil =>
    intro st r h
    exact Or.inl h
  | cons item rest ih =>
    intro st r h
    simp only [List.foldl_cons] at h
    by_cases hseen : item.chunk_id ∈ st.2
    · rw [dedupStep_pos tag st item hseen] at h
      rcases ih st r h with h1 | ⟨x, hx, hr, hid⟩
      · exact Or.inl h1
      · exact Or.inr ⟨x, List.mem_cons_of_mem _ hx, hr, hid⟩
    · rw [dedupStep_neg tag st item hseen] at h
      rcases ih _ r h with h1 | ⟨x, hx, hr, hid⟩
      · rcases List.mem_append.mp h1 with h2 | h2
        · exact Or.inl h2
        · rcases List.mem_singleton.mp h2 with rfl
          exact Or.inr ⟨item, List.mem_cons_self _ _, rfl, hseen⟩
      · simp only [List.mem_append, List.mem_singleton] at hid
        push_neg at hid
        exact Or.inr ⟨x, List.mem_cons_of_mem _ hx, hr, hid.1⟩

/-- Items already inserted stay, and ids already seen stay seen. -/
theorem dedupFold_mono (tag : RItem → RItem) :
    ∀ (items : List RItem) (st : List RItem × List Nat),
      (∀ r ∈ st.1, r ∈ (items.foldl (dedupStep tag) st).1) ∧
      (∀ id ∈ st.2, id ∈ (items.foldl (dedupStep tag) st).2) := by
  intro items
  induction items with
  | nil => intro st; exact ⟨fun r h => h, fun id h => h⟩
  | cons item rest ih =>
    intro st
    simp only [List.foldl_cons]
    by_cases hseen : item.chunk_id ∈ st.2
    · rw [dedupStep_pos tag st item hseen]
      exact ih st
    · rw [dedupStep_neg tag st item hseen]
      refine ⟨fun r h => (ih _).1 r ?_, fun id h => (ih _).2 id ?_⟩
      · exact List.mem_append.mpr (Or.inl h)
      · exact List.mem_append.mpr (Or.inl h)

theorem mergedOf_ids_nodup (vec kw : List RItem) :
    ((mergedOf vec kw).map RItem.chunk_id).Nodup := by
  have h1 : (kw.foldl (dedupStep kwTag) ([], [])).2
      = (kw.foldl (dedupStep kwTag) ([], [])).1.map RItem.chunk_id :=
    dedupFold_seen_inv kwTag kwTag_chunk_id kw ([], []) rfl
  have h2 := dedupFold_seen_inv vecTag vecTag_chunk_id (sortDesc simLE vec)
    (kw.foldl (dedupStep kwTag) ([], [])) h1
  have h3 := dedupFold_seen_nodup kwTag kw ([], []) List.nodup_nil
  have h4 := dedupFold_seen_nodup vecTag (sortDesc simLE vec)
    (kw.foldl (dedupStep kwTag) ([], [])) h3
  unfold mergedOf
  rw [← h2]
  exact h4

theorem mergeResults_ids_nodup (vec kw : List RItem) (top_k : Nat) :
    ((mergeResults vec kw top_k).map RItem.chunk_id).Nodup := by
  have hperm := (sortDesc_perm mergeLE (mergedOf vec kw)).map RItem.chunk_id
  have hnd : ((sortDesc mergeLE (mergedOf vec kw)).map RItem.chunk_id).Nodup :=
    hperm.nodup_iff.mpr (mergedOf_ids_nodup vec kw)
  unfold mergeResults
  exact List.Nodup.sublist ((List.take_sublist _ _).map _) hnd

/-- A chunk id hit by the keyword/BM25 path appears in the fused list, and
every fused item with that id is the (setdefault-tagged) keyword item. -/
theorem mergedOf_kw_id (vec kw : List RItem) (id : Nat)
    (hkwid : id ∈ kw.map RItem.chunk_id) :
    id ∈ (mergedOf vec kw).map RItem.chunk_id ∧
    (∀ r ∈ mergedOf vec kw, r.chunk_id = id → ∃ x ∈ kw, r = kwTag x) := by
  have hseen : id ∈ (kw.foldl (dedupStep kwTag) ([], [])).2 :=
    (dedupFold_seen_mem kwTag kw ([], []) id).mpr (Or.inr (by simpa using hkwid))
  have hinv1 : (kw.foldl (dedupStep kwTag) ([], [])).2
      = (kw.foldl (dedupStep kwTag) ([], [])).1.map RItem.chunk_id :=
    dedupFold_seen_inv kwTag kwTag_chunk_id kw ([], []) rfl
  have hfin_inv := dedupFold_seen_inv vecTag vecTag_chunk_id (sortDesc simLE vec)
    (kw.foldl (dedupStep kwTag) ([], [])) hinv1
  constructor
  · have hmem : id ∈ ((sortDesc simLE vec).foldl (dedupStep vecTag)
        (kw.foldl (dedupStep kwTag) ([], []))).2 :=
      (dedupFold_mono vecTag (sortDesc simLE vec)
        (kw.foldl (dedupStep kwTag) ([], []))).2 id hseen
    unfold mergedOf
    rw [← hfin_inv]
    exact hmem
  · intro r hr hrid
    rcases dedupFold_fst_mem vecTag (sortDesc simLE vec)
      (kw.foldl (dedupStep kwTag) ([], [])) r hr with h1 | ⟨x, hx, hrx, hxid⟩
    · rcases dedupFold_fst_mem kwTag kw ([], []) r h1 with h2 | ⟨x, hx, hrx, -⟩
      · simp at h2
      · exact ⟨x, hx, hrx⟩
    · exfalso
      apply hxid
      have : x.chunk_id = id := by
        rw [← vecTag_chunk_id x, ← hrx, hrid]
      rw [this]
      exact hseen

/-- The `setdefault` tag never produces the "vector" tag from a non-vector
input. -/
theorem kwTag_not_vector (x : RItem) (hx : x.source ≠ some "vector") :
    (kwTag x).source ≠ some "vector" := by
  unfold kwTag
  cases hsrc : x.source with
  | none => simp
  | some s =>
    simp only [Option.getD_some, Option.some.injEq]
    intro h
    exact hx (by rw [hsrc, h])

/-! ### Claims C5 and C9 — retrieval fusion -/

/-- C5 (counterexample): chunk id 1 appears in both the lexical and the
vector path, yet with pool size 1 it appears zero times in the output of
`merge_results` (the better-scored lexical hit with id 2 fills the pool), so
"appears exactly once in the output" fails as stated. -/
theorem claim_C5_counterexample :
    (1 ∈ ([⟨2, mkRat 9 10, some "bm25", none⟩, ⟨1, mkRat 1 2, some "bm25", none⟩]
        : List RItem).map RItem.chunk_id) ∧
    (1 ∈ ([⟨1, mkRat 8 10, none, none⟩] : List RItem).map RItem.chunk_id) ∧
    ((mergeResults [⟨1, mkRat 8 10, none, none⟩]
        [⟨2, mkRat 9 10, some "bm25", none⟩, ⟨1, mkRat 1 2, some "bm25", none⟩]
        1).map RItem.chunk_id).count 1 = 0 := by
  decide

/-- C5 (amended): `merge_results` inserts the deduplicated lexical hits
first, appends vector hits with new chunk ids, sorts stably by
(non-vector over vector, then similarity) descending and truncates to the
pool size; a chunk id occurring in both paths occurs exactly once in the
fused list before truncation (hence at most once in the output), and every
fused occurrence keeps the lexical item's source tag (never "vector"). -/
theorem claim_C5_amended (vector_results keyword_results : List RItem)
    (top_k : Nat)
    (hkw : ∀ i ∈ keyword_results, i.source ≠ some "vector") :
    mergeResults vector_results keyword_results top_k
      = (sortDesc mergeLE (mergedOf vector_results keyword_results)).take top_k ∧
    (mergeResults vector_results keyword_results top_k).Pairwise
      (fun a b => mergeLE b a = true) ∧
    ((mergeResults vector_results keyword_results top_k).map RItem.chunk_id).Nodup ∧
    (∀ id, id ∈ keyword_results.map RItem.chunk_id →
      id ∈ vector_results.map RItem.chunk_id →
      ((mergedOf vector_results keyword_results).map RItem.chunk_id).count id = 1 ∧
      (∀ r ∈ mergedOf vector_results keyword_results, r.chunk_id = id →
        r.source ≠ some "vector")) := by
  refine ⟨rfl, ?_, mergeResults_ids_nodup _ _ _, ?_⟩
  · exact List.Pairwise.sublist (List.take_sublist _ _)
      (sortDesc_pairwise mergeLE_total mergeLE_trans
        (mergedOf vector_results keyword_results))
  · intro id hkid hvid
    have h := mergedOf_kw_id vector_results keyword_results id hkid
    refine ⟨List.count_eq_one_of_mem (mergedOf_ids_nodup _ _) h.1, ?_⟩
    intro r hr hrid
    rcases h.2 r hr hrid with ⟨x, hx, rfl⟩
    exact kwTag_not_vector x (hkw x hx)

/-- Witness for C5 at concrete inputs. -/
theorem claim_C5_witness :
    (∀ i ∈ ([⟨2, mkRat 9 10, some "bm25", none⟩] : List RItem),
      i.source ≠ some "vector") ∧
    (mergeResults [⟨2, mkRat 3 10, none, none⟩] [⟨2, mkRat 9 10, some "bm25", none⟩] 5
      = (sortDesc mergeLE
          (mergedOf [⟨2, mkRat 3 10, none, none⟩]
            [⟨2, mkRat 9 10, some "bm25", none⟩])).take 5 ∧
     (mergeResults [⟨2, mkRat 3 10, none, none⟩]
        [⟨2, mkRat 9 10, some "bm25", none⟩] 5).Pairwise
        (fun a b => mergeLE b a = true) ∧
     ((mergeResults [⟨2, mkRat 3 10, none, none⟩]
        [⟨2, mkRat 9 10, some "bm25", none⟩] 5).map RItem.chunk_id).Nodup ∧
     (∀ id, id ∈ ([⟨2, mkRat 9 10, some "bm25", none⟩] : List RItem).map RItem.chunk_id →
       id ∈ ([⟨2, mkRat 3 10, none, none⟩] : List RItem).map RItem.chunk_id →
       ((mergedOf [⟨2, mkRat 3 10, none, none⟩]
          [⟨2, mkRat 9 10, some "bm25", none⟩]).map RItem.chunk_id).count id = 1 ∧
       (∀ r ∈ mergedOf [⟨2, mkRat 3 10, none, none⟩]
          [⟨2, mkRat 9 10, some "bm25", none⟩], r.chunk_id = id →
          r.source ≠ some "vector"))) :=
  ⟨by decide,
   claim_C5_amended [⟨2, mkRat 3 10, none, none⟩]
     [⟨2, mkRat 9 10, some "bm25", none⟩] 5 (by decide)⟩

/-- C9 (confirmed): every hit of the substring-fallback `keyword_search`
carries similarity 0.99 and source "keyword", and in `merge_results` every
keyword-tagged hit is ordered before every vector hit of similarity < 0.99
(in fact before every vector hit, since non-vector priority dominates). -/
theorem claim_C9 (keywords : List (List Char)) (rows : List DbRow)
    (vector_results : List RItem) (top_k : Nat) (hkw : keywords ≠ []) :
    (∀ r ∈ keywordSearch keywords rows,
      r.similarity = mkRat 99 100 ∧ r.source = some "keyword") ∧
    (mergeResults vector_results (keywordSearch keywords rows) top_k).Pairwise
      (fun a b => a.source = some "vector" → a.similarity < mkRat 99 100 →
        b.source = some "keyword" → False) := by
  constructor
  · intro r hr
    unfold keywordSearch at hr
    rw [if_neg hkw] at hr
    rcases List.mem_map.mp hr with ⟨row, -, rfl⟩
    exact ⟨rfl, rfl⟩
  · have hs := sortDesc_pairwise mergeLE_total mergeLE_trans
      (mergedOf vector_results (keywordSearch keywords rows))
    have hs2 : (mergeResults vector_results (keywordSearch keywords rows)
        top_k).Pairwise (fun a b => mergeLE b a = true) :=
      List.Pairwise.sublist (List.take_sublist _ _) hs
    refine hs2.imp ?_
    intro a b hle hav hasim hbk
    simp only [mergeLE, mergeKey, keyLE, hav, hbk, decide_eq_true_eq] at hle
    simp at hle

/-- Witness for C9 at concrete inputs. -/
theorem claim_C9_witness :
    (["q".toList] ≠ ([] : List (List Char))) ∧
    ((∀ r ∈ keywordSearch ["q".toList] [⟨5⟩],
       r.similarity = mkRat 99 100 ∧ r.source = some "keyword") ∧
     (mergeResults [⟨7, mkRat 1 2, none, none⟩]
        (keywordSearch ["q".toList] [⟨5⟩]) 3).Pairwise
       (fun a b => a.source = some "vector" → a.similarity < mkRat 99 100 →
         b.source = some "keyword" → False)) :=
  ⟨by decide,
   claim_C9 ["q".toList] [⟨5⟩] [⟨7, mkRat 1 2, none, none⟩] 3 (by decide)⟩

/-! ### Claim C4 — the structured-query (SQL) fallback trigger

`rag_service._run_retrieval` step 6:
`if enable_sql_fallback and data_source_id and no_bm25_hit and low_similarity
and not is_file_ds`.  The DataSource lookup is an oracle (`ds_lookup`);
`max_sim` is `get_max_similarity` of the merged candidate pool. -/

structure DSRec where
  db_type : String
deriving DecidableEq

/-- `is_file_ds = ds_for_fallback and ds_for_fallback.db_type == "file"`. -/
def isFileDs : Option DSRec → Bool
  | none => false
  | some d => d.db_type == "file"

/-- Python truthiness of an `Optional[int]`: `None` and `0` are falsy. -/
def pyTruthyId : Option Nat → Bool
  | none => false
  | some n => n != 0

/-- `SIMILARITY_THRESHOLD = 0.45` (rag_service.py line 37). -/
def SIMILARITY_THRESHOLD : ℚ := mkRat 45 100

/-- The step-6 trigger condition of `_run_retrieval`. -/
def sqlFallbackTriggered (enable_sql_fallback : Bool)
    (data_source_id : Option Nat) (ds_lookup : Option DSRec)
    (bm25_results : List RItem) (candidate_chunks : List RItem) : Bool :=
  enable_sql_fallback && pyTruthyId data_source_id
    && decide (bm25_results.length = 0)
    && decide (getMaxSimilarity candidate_chunks < SIMILARITY_THRESHOLD)
    && !(isFileDs (if pyTruthyId data_source_id then ds_lookup else none))

theorem pyTruthyId_iff (o : Option Nat) :
    pyTruthyId o = true ↔ ∃ n, o = some n ∧ n ≠ 0 := by
  cases o with
  | none => simp [pyTruthyId]
  | some n => simp [pyTruthyId]

theorem isFileDs_iff (o : Option DSRec) :
    isFileDs o = true ↔ ∃ d, o = some d ∧ d.db_type = "file" := by
  cases o with
  | none => simp [isFileDs]
  | some d => simp [isFileDs]

theorem foldl_max_lt_iff (θ : ℚ) :
    ∀ (xs : List ℚ) (x : ℚ),
      xs.foldl max x < θ ↔ x < θ ∧ ∀ y ∈ xs, y < θ := by
  intro xs
  induction xs with
  | nil => intro x; simp
  | cons y ys ih =>
    intro x
    simp only [List.foldl_cons]
    rw [ih]
    constructor
    · rintro ⟨h1, h2⟩
      rcases max_lt_iff.mp h1 with ⟨hx, hy⟩
      refine ⟨hx, ?_⟩
      intro z hz
      rcases List.mem_cons.mp hz with rfl | hz2
      · exact hy
      · exact h2 z hz2
    · rintro ⟨h1, h2⟩
      exact ⟨max_lt_iff.mpr ⟨h1, h2 y (List.mem_cons_self _ _)⟩,
        fun z hz => h2 z (List.mem_cons_of_mem _ hz)⟩

/-- The tracked maximum is below a positive threshold exactly when every
vector-sourced candidate's similarity is. -/
theorem getMaxSimilarity_lt_iff (results : List RItem) {θ : ℚ} (hθ : 0 < θ) :
    getMaxSimilarity results < θ ↔
      ∀ r ∈ results, r.source = some "vector" → r.similarity < θ := by
  have hbridge : (∀ y ∈ (results.filter (fun r => r.source = some "vector")).map
        (fun r => r.similarity), y < θ)
      ↔ ∀ r ∈ results, r.source = some "vector" → r.similarity < θ := by
    constructor
    · intro h r hr hrv
      exact h r.similarity (List.mem_map.mpr
        ⟨r, List.mem_filter.mpr ⟨hr, by simpa using hrv⟩, rfl⟩)
    · intro h y hy
      rcases List.mem_map.mp hy with ⟨r, hrf, rfl⟩
      rcases List.mem_filter.mp hrf with ⟨hr, hrv⟩
      exact h r hr (by simpa using hrv)
  rw [← hbridge]
  unfold getMaxSimilarity
  cases hfl : (results.filter (fun r => r.source = some "vector")).map
      (fun r => r.similarity) with
  | nil => simp [hθ]
  | cons x xs =>
    rw [foldl_max_lt_iff]
    simp [List.forall_mem_cons]

/-- Lexical and keyword hits never contribute to the tracked maximum: it is
the same computed on the vector-filtered list. -/
theorem getMaxSimilarity_vector_only (results : List RItem) :
    getMaxSimilarity (results.filter (fun r => r.source = some "vector"))
      = getMaxSimilarity results := by
  unfold getMaxSimilarity
  rw [List.filter_filter]
  have heq : (fun (r : RItem) => decide (r.source = some "vector")
        && decide (r.source = some "vector"))
      = (fun r => decide (r.source = some "vector")) := by
    funext r
    cases hd : decide (r.source = some "vector") <;> simp
  rw [heq]

/-- C4 (counterexample): with the SQL-fallback flag disabled, the fallback
does not fire even though all four listed conditions hold (DataSource id 1
given, non-file DataSource, zero BM25 hits, max vector similarity 0 < 0.45),
so the trigger is not equivalent to the four conditions alone. -/
theorem claim_C4_counterexample :
    sqlFallbackTriggered false (some 1) (some ⟨"mysql"⟩) [] [] = false ∧
    (some 1 : Option Nat) ≠ none ∧
    isFileDs (some ⟨"mysql"⟩) = false ∧
    ([] : List RItem).length = 0 ∧
    getMaxSimilarity [] < SIMILARITY_THRESHOLD := by
  refine ⟨rfl, by decide, rfl, rfl, ?_⟩
  decide

/-- C4 (amended): the SQL fallback fires exactly when the feature flag is
enabled, a truthy (nonzero) DataSource id is given, the lexical/BM25 path
produced zero hits, every vector-sourced candidate's similarity is below
0.45 (equivalently, the tracked maximum is), and the looked-up DataSource is
not a file-type source; and the tracked maximum ignores non-vector hits. -/
theorem claim_C4_amended (enable_sql_fallback : Bool)
    (data_source_id : Option Nat) (ds_lookup : Option DSRec)
    (bm25_results candidate_chunks : List RItem) :
    (sqlFallbackTriggered enable_sql_fallback data_source_id ds_lookup
        bm25_results candidate_chunks = true ↔
      (enable_sql_fallback = true ∧
       (∃ n, data_source_id = some n ∧ n ≠ 0) ∧
       bm25_results = [] ∧
       (∀ r ∈ candidate_chunks, r.source = some "vector" →
         r.similarity < SIMILARITY_THRESHOLD) ∧
       ¬ ∃ d, ds_lookup = some d ∧ d.db_type = "file")) ∧
    getMaxSimilarity (candidate_chunks.filter (fun r => r.source = some "vector"))
      = getMaxSimilarity candidate_chunks := by
  refine ⟨?_, getMaxSimilarity_vector_only candidate_chunks⟩
  have hθ : (0 : ℚ) < SIMILARITY_THRESHOLD := by decide
  constructor
  · intro h
    simp only [sqlFallbackTriggered, Bool.and_eq_true, Bool.not_eq_true',
      decide_eq_true_eq] at h
    obtain ⟨⟨⟨⟨he, ht⟩, hb⟩, hm⟩, hf⟩ := h
    rw [if_pos ht] at hf
    refine ⟨he, (pyTruthyId_iff _).mp ht, List.length_eq_zero.mp hb,
      (getMaxSimilarity_lt_iff _ hθ).mp hm, ?_⟩
    intro hex
    have := (isFileDs_iff ds_lookup).mpr hex
    rw [hf] at this
    exact Bool.noConfusion this
  · rintro ⟨he, hn, hb, hm, hf⟩
    have ht : pyTruthyId data_source_id = true := (pyTruthyId_iff _).mpr hn
    have hfd : isFileDs ds_lookup = false := by
      cases hc : isFileDs ds_lookup
      · rfl
      · exact absurd ((isFileDs_iff _).mp hc) hf
    simp only [sqlFallbackTriggered, Bool.and_eq_true, Bool.not_eq_true',
      decide_eq_true_eq]
    refine ⟨⟨⟨⟨he, ht⟩, by simp [hb]⟩,
      (getMaxSimilarity_lt_iff _ hθ).mpr hm⟩, ?_⟩
    rw [if_pos ht]
    exact hfd

/-! ### Claim C2 — `bm25_search` (bm25_service.py lines 104–161)

`jieba` tokenisation and the `rank_bm25` scorer are external libraries: the
token list and the per-document score array are oracle parameters.  The
repository's own post-processing — stable descending sort of the document
indexes, the `break` on non-positive scores, the cap of `top_k * 2`
candidates, the normalisation into a similarity, and the final `[:top_k]`
truncation — is embedded exactly. -/

def bmRankLE (scores : List ℚ) (i j : Nat) : Bool :=
  decide (scores.getD i 0 ≤ scores.getD j 0)

/-- `sorted(range(len(scores)), key=lambda i: scores[i], reverse=True)`. -/
def bmIndexed (scores : List ℚ) : List Nat :=
  sortDesc (bmRankLE scores) (List.range scores.length)

/-- `max_score = scores[indexed[0]] if indexed else 1.0`. -/
def bmMaxScore (scores : List ℚ) : ℚ :=
  match bmIndexed scores with
  | [] => 1
  | i :: _ => scores.getD i 0

/-- The `1e-9` guard of the normalisation. -/
def bmEps : ℚ := mkRat 1 1000000000

/-- `min(score / (max_score + 1e-9) * 0.99, 0.99)`. -/
def bmSim (s maxScore : ℚ) : ℚ :=
  min (s / (maxScore + bmEps) * mkRat 99 100) (mkRat 99 100)

/-- The result dict built for the document at index `i`. -/
def bmHitOf (chunkIds : List Nat) (scores : List ℚ) (maxScore : ℚ) (i : Nat) :
    RItem :=
  { chunk_id := chunkIds.getD i 0,
    similarity := bmSim (scores.getD i 0) maxScore,
    source := some "bm25",
    bm25_score := some (scores.getD i 0) }

/-- The `for idx in indexed[: top_k * 2]` loop with its `break` on a
non-positive score. -/
def bmLoop (chunkIds : List Nat) (scores : List ℚ) (maxScore : ℚ) :
    List Nat → List RItem
  | [] => []
  | i :: rest =>
    if scores.getD i 0 ≤ 0 then []
    else bmHitOf chunkIds scores maxScore i ::
      bmLoop chunkIds scores maxScore rest

/-- `bm25_search(db, query, data_source_id, top_k)`. -/
def bm25Search (data_source_id : Option Nat) (chunkIds : List Nat)
    (scores : List ℚ) (query_tokens : List (List Char)) (top_k : Nat) :
    List RItem :=
  if data_source_id = none then []
  else if chunkIds = [] then []
  else if query_tokens = [] then []
  else
    (bmLoop chunkIds scores (bmMaxScore scores)
      ((bmIndexed scores).take (top_k * 2))).take top_k

theorem bmRankLE_total (scores : List ℚ) (a b : Nat)
    (h : bmRankLE scores a b ≠ true) : bmRankLE scores b a = true := by
  simp only [ne_eq, bmRankLE, decide_eq_true_eq] at h ⊢
  rcases le_total (scores.getD a 0) (scores.getD b 0) with h2 | h2
  · exact absurd h2 h
  · exact h2

theorem bmRankLE_trans (scores : List ℚ) (a b c : Nat)
    (h1 : bmRankLE scores a b = true) (h2 : bmRankLE scores b c = true) :
    bmRankLE scores a c = true := by
  simp only [bmRankLE, decide_eq_true_eq] at h1 h2 ⊢
  exact le_trans h1 h2

theorem bmIndexed_pairwise (scores : List ℚ) :
    (bmIndexed scores).Pairwise (fun a b => bmRankLE scores b a = true) :=
  sortDesc_pairwise (bmRankLE_total scores) (bmRankLE_trans scores) _

/-- Every score reached through the sorted index list is bounded by the top
score. -/
theorem bmMaxScore_ge (scores : List ℚ) :
    ∀ i ∈ bmIndexed scores, scores.getD i 0 ≤ bmMaxScore scores := by
  intro i hi
  unfold bmMaxScore
  cases hI : bmIndexed scores with
  | nil =>
    rw [hI] at hi
    simp at hi
  | cons h t =>
    rw [hI] at hi
    have hp := bmIndexed_pairwise scores
    rw [hI] at hp
    rcases List.mem_cons.mp hi with rfl | hi2
    · exact le_refl _
    · have := (List.pairwise_cons.mp hp).1 i hi2
      simpa [bmRankLE] using this

theorem bmLoop_mem (chunkIds : List Nat) (scores : List ℚ) (maxScore : ℚ) :
    ∀ (l : List Nat) (r : RItem), r ∈ bmLoop chunkIds scores maxScore l →
      ∃ i ∈ l, r = bmHitOf chunkIds scores maxScore i ∧ 0 < scores.getD i 0 := by
  intro l
  induction l with
  | nil => intro r h; simp [bmLoop] at h
  | cons i rest ih =>
    intro r h
    unfold bmLoop at h
    by_cases hs : scores.getD i 0 ≤ 0
    · rw [if_pos hs] at h
      simp at h
    · rw [if_neg hs] at h
      rcases List.mem_cons.mp h with rfl | h2
      · exact ⟨i, List.mem_cons_self _ _, rfl, lt_of_not_le hs⟩
      · rcases ih r h2 with ⟨j, hj, hr, hpos⟩
        exact ⟨j, List.mem_cons_of_mem _ hj, hr, hpos⟩

/-- On a list of indexes sorted by descending score, the `break` behaves as
dropping all non-positive scores. -/
theorem bmLoop_eq_filter (chunkIds : List Nat) (scores : List ℚ) (maxScore : ℚ) :
    ∀ l : List Nat, l.Pairwise (fun a b => bmRankLE scores b a = true) →
      bmLoop chunkIds scores maxScore l
        = (l.filter (fun i => decide (0 < scores.getD i 0))).map
            (bmHitOf chunkIds scores maxScore) := by
  intro l
  induction l with
  | nil => intro _; simp [bmLoop]
  | cons i rest ih =>
    intro hp
    rcases List.pairwise_cons.mp hp with ⟨hhead, htail⟩
    unfold bmLoop
    by_cases hs : scores.getD i 0 ≤ 0
    · rw [if_pos hs]
      have hrest : rest.filter (fun i => decide (0 < scores.getD i 0)) = [] := by
        rw [List.filter_eq_nil_iff]
        intro j hj
        have hji := hhead j hj
        simp only [bmRankLE, decide_eq_true_eq] at hji
        intro hc
        exact absurd (of_decide_eq_true hc) (not_lt.mpr (le_trans hji hs))
      rw [@List.filter_cons_of_neg _ (fun j => decide (0 < scores.getD j 0)) i rest
        (fun hc => absurd (of_decide_eq_true hc) (not_lt.mpr hs)), hrest]
      rfl
    · rw [if_neg hs]
      rw [@List.filter_cons_of_pos _ (fun j => decide (0 < scores.getD j 0)) i rest
        (decide_eq_true (lt_of_not_le hs)), List.map_cons, ih htail]

theorem bmSim_bounds (s m : ℚ) (hs : 0 < s) (hm : s ≤ m) :
    0 < bmSim s m ∧ bmSim s m < mkRat 99 100 := by
  have heps : (0 : ℚ) < bmEps := by decide
  have hc : (0 : ℚ) < mkRat 99 100 := by decide
  have hm0 : 0 < m + bmEps := by linarith
  have hratio_pos : 0 < s / (m + bmEps) := div_pos hs hm0
  have hratio_lt : s / (m + bmEps) < 1 := (div_lt_one hm0).mpr (by linarith)
  have hx_pos : 0 < s / (m + bmEps) * mkRat 99 100 := mul_pos hratio_pos hc
  have hx_lt : s / (m + bmEps) * mkRat 99 100 < mkRat 99 100 := by
    calc s / (m + bmEps) * mkRat 99 100 < 1 * mkRat 99 100 :=
          mul_lt_mul_of_pos_right hratio_lt hc
      _ = mkRat 99 100 := one_mul _
  constructor
  · unfold bmSim
    rw [min_eq_left (le_of_lt hx_lt)]
    exact hx_pos
  · unfold bmSim
    rw [min_eq_left (le_of_lt hx_lt)]
    exact hx_lt

/-- C2 (counterexample): with two positively scored documents and
`top_k = 1`, `bm25_search` returns a single hit, not the `2 × top_k = 2`
candidates the claim promises — the final `[:top_k]` truncation caps the
result at `top_k`. -/
theorem claim_C2_counterexample :
    (bm25Search (some 1) [10, 20] [2, 1] ["q".toList] 1).length = 1 ∧
    (((bmIndexed [2, 1]).filter
        (fun i => decide (0 < ([2, 1] : List ℚ).getD i 0))).length = 2) ∧
    1 * 2 = 2 := by
  refine ⟨?_, by decide, rfl⟩
  decide

/-- C2 (amended): for a given DataSource with a built, non-empty index:
an empty token list yields the empty list; otherwise the result is the
top-`top_k` prefix of the positively-scored documents taken from the first
`2×top_k` indexes in descending score order; it carries at most `top_k`
hits, each tagged "bm25" with its raw score and a similarity normalised
against the top score into (0, 0.99), listed in descending raw-score
order. -/
theorem claim_C2_amended (data_source_id : Option Nat) (chunkIds : List Nat)
    (scores : List ℚ) (query_tokens : List (List Char)) (top_k : Nat)
    (hds : data_source_id ≠ none) (hch : chunkIds ≠ []) :
    (query_tokens = [] →
      bm25Search data_source_id chunkIds scores query_tokens top_k = []) ∧
    (bm25Search data_source_id chunkIds scores query_tokens top_k
      = if query_tokens = [] then []
        else ((((bmIndexed scores).take (top_k * 2)).filter
            (fun i => decide (0 < scores.getD i 0))).map
            (bmHitOf chunkIds scores (bmMaxScore scores))).take top_k) ∧
    (bm25Search data_source_id chunkIds scores query_tokens top_k).length
      ≤ top_k ∧
    (∀ r ∈ bm25Search data_source_id chunkIds scores query_tokens top_k,
      ∃ s, r.bm25_score = some s ∧ 0 < s ∧ s ≤ bmMaxScore scores ∧
        r.similarity = bmSim s (bmMaxScore scores) ∧
        0 < r.similarity ∧ r.similarity < mkRat 99 100 ∧
        r.source = some "bm25") ∧
    (bm25Search data_source_id chunkIds scores query_tokens top_k).Pairwise
      (fun a b => ∀ sa sb, a.bm25_score = some sa → b.bm25_score = some sb →
        sb ≤ sa) := by
  have hunf : bm25Search data_source_id chunkIds scores query_tokens top_k
      = if query_tokens = [] then []
        else (bmLoop chunkIds scores (bmMaxScore scores)
          ((bmIndexed scores).take (top_k * 2))).take top_k := by
    unfold bm25Search
    rw [if_neg hds, if_neg hch]
  have htake_pairwise : ((bmIndexed scores).take (top_k * 2)).Pairwise
      (fun a b => bmRankLE scores b a = true) :=
    List.Pairwise.sublist (List.take_sublist _ _) (bmIndexed_pairwise scores)
  refine ⟨?_, ?_, ?_, ?_, ?_⟩
  · intro hq
    rw [hunf, if_pos hq]
  · rw [hunf]
    by_cases hq : query_tokens = []
    · rw [if_pos hq, if_pos hq]
    · rw [if_neg hq, if_neg hq,
        bmLoop_eq_filter chunkIds scores (bmMaxScore scores) _ htake_pairwise]
  · rw [hunf]
    by_cases hq : query_tokens = []
    · simp [hq]
    · rw [if_neg hq]
      exact List.length_take_le _ _
  · intro r hr
    rw [hunf] at hr
    by_cases hq : query_tokens = []
    · rw [if_pos hq] at hr
      simp at hr
    · rw [if_neg hq] at hr
      have hr2 := List.mem_of_mem_take hr
      rcases bmLoop_mem chunkIds scores (bmMaxScore scores) _ r hr2
        with ⟨i, hi, rfl, hpos⟩
      have hmax : scores.getD i 0 ≤ bmMaxScore scores :=
        bmMaxScore_ge scores i (List.mem_of_mem_take hi)
      have hb := bmSim_bounds (scores.getD i 0) (bmMaxScore scores) hpos hmax
      exact ⟨scores.getD i 0, rfl, hpos, hmax, rfl, hb.1, hb.2, rfl⟩
  · rw [hunf]
    by_cases hq : query_tokens = []
    · simp [hq]
    · rw [if_neg hq]
      apply List.Pairwise.sublist (List.take_sublist _ _)
      rw [bmLoop_eq_filter chunkIds scores (bmMaxScore scores) _ htake_pairwise]
      rw [List.pairwise_map]
      have hfsub : List.Sublist
          (((bmIndexed scores).take (top_k * 2)).filter
            (fun i => decide (0 < scores.getD i 0)))
          ((bmIndexed scores).take (top_k * 2)) := List.filter_sublist _
      have hfp := List.Pairwise.sublist hfsub htake_pairwise
      refine hfp.imp ?_
      intro a b hle sa sb hsa hsb
      simp only [bmHitOf, Option.some.injEq] at hsa hsb
      subst hsa
      subst hsb
      simpa [bmRankLE] using hle

/-- Witness for C2 at a concrete input. -/
theorem claim_C2_witness :
    ((some 1 : Option Nat) ≠ none) ∧ (([10] : List Nat) ≠ []) ∧
    ((["q".toList] = ([] : List (List Char)) →
       bm25Search (some 1) [10] [1] ["q".toList] 2 = []) ∧
     (bm25Search (some 1) [10] [1] ["q".toList] 2
       = if ["q".toList] = ([] : List (List Char)) then []
         else ((((bmIndexed [1]).take (2 * 2)).filter
             (fun i => decide (0 < ([1] : List ℚ).getD i 0))).map
             (bmHitOf [10] [1] (bmMaxScore [1]))).take 2) ∧
     (bm25Search (some 1) [10] [1] ["q".toList] 2).length ≤ 2 ∧
     (∀ r ∈ bm25Search (some 1) [10] [1] ["q".toList] 2,
       ∃ s, r.bm25_score = some s ∧ 0 < s ∧ s ≤ bmMaxScore [1] ∧
         r.similarity = bmSim s (bmMaxScore [1]) ∧
         0 < r.similarity ∧ r.similarity < mkRat 99 100 ∧
         r.source = some "bm25") ∧
     (bm25Search (some 1) [10] [1] ["q".toList] 2).Pairwise
       (fun a b => ∀ sa sb, a.bm25_score = some sa → b.bm25_score = some sb →
         sb ≤ sa)) :=
  ⟨by decide, by decide,
   claim_C2_amended (some 1) [10] [1] ["q".toList] 2 (by decide) (by decide)⟩

/-! ### Claims C1 and C8 — `sync_data_source` (vector_store_service.py lines 101–149)

The extraction/chunking/embedding body (`sync_file_data_source` or
`_sync_database_source`) is an oracle: an `Except String Nat` carrying either
the raised exception's message or the returned chunk count.  The mutable
DataSource row, the module-level `_bm25_indexes` dict of bm25_service and the
`_ds_versions` dict of cache_service form the state.  `datetime.now` is the
oracle parameter `now`.  The two cache helpers are total dictionary updates
(delete under lock, increment under lock), so their per-call `try/except`
wrappers never fire in the model. -/

structure DSRow where
  sync_status : String
  sync_progress : Int
  sync_error : Option String
  last_synced_at : Option Nat
deriving DecidableEq

structure SyncState where
  ds : DSRow
  bm25_indexes : Nat → Bool
  ds_versions : Nat → Nat

/-- `invalidate_bm25_index` (bm25_service.py lines 92–97): drop the cached
index for this id. -/
def invalidate_bm25_index (d : Nat) (idx : Nat → Bool) : Nat → Bool :=
  fun i => if i = d then false else idx i

/-- `bump_ds_version` (cache_service.py lines 91–95):
`_ds_versions[d] = _ds_versions.get(d, 0) + 1`. -/
def bump_ds_version (d : Nat) (v : Nat → Nat) : Nat → Nat :=
  fun i => if i = d then v i + 1 else v i

/-- `sync_data_source(db, ds)`: mark syncing, run the body, then either the
success epilogue (synced/100/timestamp/clear error, invalidate BM25 index,
bump version, return the count) or the failure epilogue (error/message/0,
re-raise, no cache invalidation). -/
def sync_data_source (dsId now : Nat) (body : Except String Nat)
    (st : SyncState) : Except String Nat × SyncState :=
  let st1 : SyncState :=
    { st with ds := { st.ds with sync_status := "syncing", sync_progress := 0 } }
  match body with
  | Except.ok total_chunks =>
    let st2 : SyncState :=
      { st1 with ds := { st1.ds with
          sync_status := "synced", sync_progress := 100,
          last_synced_at := some now, sync_error := none } }
    let st3 : SyncState :=
      { st2 with bm25_indexes := invalidate_bm25_index dsId st2.bm25_indexes }
    let st4 : SyncState :=
      { st3 with ds_versions := bump_ds_version dsId st3.ds_versions }
    (Except.ok total_chunks, st4)
  | Except.error e =>
    let st2 : SyncState :=
      { st1 with ds := { st1.ds with
          sync_status := "error", sync_error := some e, sync_progress := 0 } }
    (Except.error e, st2)

/-- A concrete pre-sync state: one pending DataSource, a cached BM25 index
for id 7, all version counters at 0. -/
def sampleSyncState : SyncState :=
  { ds := { sync_status := "pending", sync_progress := 0,
            sync_error := none, last_synced_at := none },
    bm25_indexes := fun _ => true,
    ds_versions := fun _ => 0 }

/-- C8: a successful sync run sets status "synced", progress 100, records the
timestamp, clears the error, returns the chunk count, removes the cached BM25
index for that DataSource, increments its version counter by exactly one, and
leaves every other DataSource's index and counter untouched. -/
theorem claim_C8 (dsId now n : Nat) (st : SyncState) :
    (sync_data_source dsId now (Except.ok n) st).1 = Except.ok n ∧
    (sync_data_source dsId now (Except.ok n) st).2.ds.sync_status = "synced" ∧
    (sync_data_source dsId now (Except.ok n) st).2.ds.sync_progress = 100 ∧
    (sync_data_source dsId now (Except.ok n) st).2.ds.last_synced_at = some now ∧
    (sync_data_source dsId now (Except.ok n) st).2.ds.sync_error = none ∧
    (sync_data_source dsId now (Except.ok n) st).2.bm25_indexes dsId = false ∧
    (sync_data_source dsId now (Except.ok n) st).2.ds_versions dsId
      = st.ds_versions dsId + 1 ∧
    (∀ i, i ≠ dsId →
      (sync_data_source dsId now (Except.ok n) st).2.bm25_indexes i
        = st.bm25_indexes i ∧
      (sync_data_source dsId now (Except.ok n) st).2.ds_versions i
        = st.ds_versions i) := by
  refine ⟨rfl, rfl, rfl, rfl, rfl, ?_, ?_, ?_⟩
  · show invalidate_bm25_index dsId st.bm25_indexes dsId = false
    unfold invalidate_bm25_index
    rw [if_pos rfl]
  · show bump_ds_version dsId st.ds_versions dsId = st.ds_versions dsId + 1
    unfold bump_ds_version
    rw [if_pos rfl]
  · intro i hi
    constructor
    · show invalidate_bm25_index dsId st.bm25_indexes i = st.bm25_indexes i
      unfold invalidate_bm25_index
      rw [if_neg hi]
    · show bump_ds_version dsId st.ds_versions i = st.ds_versions i
      unfold bump_ds_version
      rw [if_neg hi]

/-- C1 (counterexample): a failing sync run for DataSource 7 sets the error
state as claimed, but performs neither invalidation: the version counter
stays at 0 instead of incrementing, and the cached BM25 index is still
present — the `except` branch re-raises before ever reaching the cache
helpers. -/
theorem claim_C1_counterexample :
    (sync_data_source 7 123 (Except.error "boom") sampleSyncState).2.ds.sync_status
      = "error" ∧
    (sync_data_source 7 123 (Except.error "boom") sampleSyncState).2.ds.sync_progress
      = 0 ∧
    (sync_data_source 7 123 (Except.error "boom") sampleSyncState).2.ds.sync_error
      = some "boom" ∧
    (sync_data_source 7 123 (Except.error "boom") sampleSyncState).2.ds_versions 7
      ≠ sampleSyncState.ds_versions 7 + 1 ∧
    (sync_data_source 7 123 (Except.error "boom") sampleSyncState).2.bm25_indexes 7
      = true :=
  ⟨rfl, rfl, rfl, by decide, rfl⟩

/-- C1 (amended): a failing sync run sets status "error", resets progress
to 0, captures the error message, re-raises the exception, leaves the
last-sync timestamp unchanged — and performs no cache invalidation at all:
the BM25 index cache and every version counter are exactly as before, so the
version counter increments only on success. -/
theorem claim_C1_amended (dsId now : Nat) (e : String) (st : SyncState) :
    (sync_data_source dsId now (Except.error e) st).1 = Except.error e ∧
    (sync_data_source dsId now (Except.error e) st).2.ds.sync_status = "error" ∧
    (sync_data_source dsId now (Except.error e) st).2.ds.sync_progress = 0 ∧
    (sync_data_source dsId now (Except.error e) st).2.ds.sync_error = some e ∧
    (sync_data_source dsId now (Except.error e) st).2.ds.last_synced_at
      = st.ds.last_synced_at ∧
    (sync_data_source dsId now (Except.error e) st).2.bm25_indexes
      = st.bm25_indexes ∧
    (sync_data_source dsId now (Except.error e) st).2.ds_versions
      = st.ds_versions :=
  ⟨rfl, rfl, rfl, rfl, rfl, rfl, rfl⟩

end ZeRag
